import Mathlib

/-!
Verification development for the sonny-jim JSON parser (src/src/lib.rs).
The source is shallowly embedded: the source text is a list of bytes
(`List Nat`, each < 256 for meaningful inputs), the logos-generated lexer is
modelled by `lexFrom`, the arena with its key interner by `Arena` and
`internString`, and the iterative parser state machine by `stepTok` /
`runTokens`.  The cooperative entry point `parse_async` is modelled by
`pollSteps` / `parseAsync`.
-/

namespace SonnyJim

/-- A half-open byte range `start..stop`, as Rust's `Range<u32>` (`end` is a
Lean keyword, so the field is named `stop`). -/
structure Span where
  start : Nat
  stop : Nat
deriving DecidableEq, Repr

/-- The byte slice `l[a..b]`, as Rust slice indexing (empty when `a ≥ b`). -/
def sliceList (l : List Nat) (a b : Nat) : List Nat := (l.take b).drop a

/-- `LeafValue` from the source: `Bool`, `Null`, `Number`, `String`. -/
inductive LeafValue
  | bool (b : Bool)
  | null
  | number
  | string
deriving DecidableEq, Repr

/-- `Token` from the source: the six structural tokens plus leaf values. -/
inductive Token
  | openObject
  | openArray
  | closeObject
  | closeArray
  | colon
  | comma
  | leaf (v : LeafValue)
deriving DecidableEq, Repr

/-- The lexer's whitespace skip class `[ \t\r\n]`. -/
def isWs (b : Nat) : Bool := b == 32 || b == 9 || b == 13 || b == 10

def isDigit (b : Nat) : Bool := 48 ≤ b && b ≤ 57

/-- First-byte class of the number token regex `[-0-9][0-9eE+\-\.]*`. -/
def numStartB (b : Nat) : Bool := b == 45 || isDigit b

/-- Continuation-byte class of the number token regex. -/
def numContB (b : Nat) : Bool :=
  isDigit b || b == 101 || b == 69 || b == 43 || b == 45 || b == 46

/-- Length of the maximal run of number-continuation bytes starting at `i`
(the greedy tail of the number token regex). -/
def numExtra (src : List Nat) (i : Nat) : Nat :=
  if h : i < src.length then
    if numContB (src.getD i 0) then numExtra src (i + 1) + 1 else 0
  else 0
termination_by src.length - i

/-- Scan the tail of a string token from position `i` (just after a quote or
an escape), per the string regex `"([^"\\]*(\\.)?)*"` as compiled by
logos/regex-syntax, where `.` matches any character except the newline: a
backslash must be followed by a byte other than `0x0A` (and by anything at
all), else no string token exists here. Returns the number of bytes up to
and including the closing quote. -/
def strScanLen (src : List Nat) (i : Nat) : Option Nat :=
  if h : i < src.length then
    if src.getD i 0 == 34 then some 1
    else if src.getD i 0 == 92 then
      if i + 1 < src.length then
        if src.getD (i + 1) 0 == 10 then none
        else (strScanLen src (i + 2)).map (· + 2)
      else none
    else (strScanLen src (i + 1)).map (· + 1)
  else none
termination_by src.length - i

/-- Does the keyword `kw` appear at position `i` of `src`? -/
def keywordAt (src : List Nat) (i : Nat) (kw : List Nat) : Bool :=
  sliceList src i (i + kw.length) == kw

/-- The token starting at position `i` (which the caller knows is not
whitespace), with maximal munch: `some (t, extra)` means the token occupies
`[i, i+1+extra)`; `none` means no token class matches (a lexical error). -/
def tokenAt (src : List Nat) (i : Nat) : Option (Token × Nat) :=
  if src.getD i 0 == 123 then some (.openObject, 0)
  else if src.getD i 0 == 125 then some (.closeObject, 0)
  else if src.getD i 0 == 91 then some (.openArray, 0)
  else if src.getD i 0 == 93 then some (.closeArray, 0)
  else if src.getD i 0 == 58 then some (.colon, 0)
  else if src.getD i 0 == 44 then some (.comma, 0)
  else if keywordAt src i [102, 97, 108, 115, 101] then some (.leaf (.bool false), 4)
  else if keywordAt src i [116, 114, 117, 101] then some (.leaf (.bool true), 3)
  else if keywordAt src i [110, 117, 108, 108] then some (.leaf .null, 3)
  else if numStartB (src.getD i 0) then some (.leaf .number, numExtra src (i + 1))
  else if src.getD i 0 == 34 then (strScanLen src (i + 1)).map (fun n => (.leaf .string, n))
  else none

/-- A lexed item: a token with its span, or a lexical error with its span. -/
abbrev TokR := Except Span (Token × Span)

/-- The lexer: skip whitespace, emit the maximal token, repeat; a byte
sequence matching no token class is emitted as one error item (the parser
stops at the first error item, so nothing after it matters). -/
def lexFrom (src : List Nat) (i : Nat) : List TokR :=
  if h : i < src.length then
    if isWs (src.getD i 0) then lexFrom src (i + 1)
    else
      match tokenAt src i with
      | some (t, extra) => .ok (t, ⟨i, i + 1 + extra⟩) :: lexFrom src (i + 1 + extra)
      | none => [.error ⟨i, i + 1⟩]
  else []
termination_by src.length - i
decreasing_by
  · omega
  · omega

/-- All lexed items of a source text. -/
def tokenize (src : List Nat) : List TokR := lexFrom src 0

/-- `StringKey` from the source: a single span under the disambiguation rule
(`stop ≥ start` addresses the source, `stop < start` the scratch read from
offset `stop` to offset `start`). -/
structure StringKey where
  span : Span
deriving DecidableEq, Repr

/-- `ValueKind` from the source: a leaf, or ranges into the arena's global
key/value vectors. -/
inductive ValueKind
  | leaf (v : LeafValue)
  | object (keys : Span) (values : Span)
  | array (values : Span)
deriving DecidableEq, Repr

/-- `Value` from the source: a kind with the span of every byte of the parsed
production. -/
structure Value where
  span : Span
  kind : ValueKind
deriving DecidableEq, Repr

/-- The arena: borrowed source, escape scratch buffer, interner table (the
hash table modelled as the list of its entries in insertion order) and the
two global side-vectors. -/
structure Arena where
  src : List Nat
  scratch : List Nat
  table : List StringKey
  keys : List StringKey
  values : List Value
deriving DecidableEq, Repr

/-- `Index<&StringKey> for Scratch`: resolve a key against source and
scratch under the reversed-span disambiguation rule. -/
def resolveIn (src scratch : List Nat) (k : StringKey) : List Nat :=
  if k.span.stop < k.span.start then sliceList scratch k.span.stop k.span.start
  else sliceList src k.span.start k.span.stop

/-- `Index<&StringKey> for Arena`. -/
def Arena.resolve (ar : Arena) (k : StringKey) : List Nat :=
  resolveIn ar.src ar.scratch k

/-- `Arena::new`. -/
def Arena.new (src : List Nat) : Arena := ⟨src, [], [], [], []⟩

/-- The value of one hex-digit byte, as `hex::decode` accepts them. -/
def hexVal (b : Nat) : Option Nat :=
  if 48 ≤ b ∧ b ≤ 57 then some (b - 48)
  else if 97 ≤ b ∧ b ≤ 102 then some (b - 87)
  else if 65 ≤ b ∧ b ≤ 70 then some (b - 55)
  else none

/-- UTF-8 encoding of a BMP code point, as Rust's `String::push` writes the
`char` that `char::from_u32` produced from a `u16` (so `c < 0x10000`). -/
def utf8Encode (c : Nat) : List Nat :=
  if c < 128 then [c]
  else if c < 2048 then [192 + c / 64, 128 + c % 64]
  else [224 + c / 4096, 128 + c / 64 % 64, 128 + c % 64]

/-- The first index holding a backslash (`memchr(b'\\', ..)`). -/
def memchrSlash : List Nat → Option Nat
  | [] => none
  | a :: l => if a == 92 then some 0 else (memchrSlash l).map (· + 1)

/-- A found backslash index is inside the list (used for termination of the
decode loop). -/
theorem memchrSlash_lt_length (l : List Nat) (e : Nat) (he : memchrSlash l = some e) :
    e < l.length := by
  induction l generalizing e with
  | nil => simp [memchrSlash] at he
  | cons a t ih =>
    by_cases ha : a == 92
    · simp [memchrSlash, ha] at he
      simp [List.length_cons]
      omega
    · simp [memchrSlash, ha] at he
      obtain ⟨e1, he1, rfl⟩ := he
      have := ih e1 he1
      simp
      omega

/-- The escape-decoding loop of `Arena::intern_string`: repeatedly jump to
the next backslash in `src[start..fin]`, push the run before it and the
translated escape onto the scratch, and return the final `start` (the
un-pushed tail is `src[start..fin]`).  Errors (`Err(())` in the source) keep
the scratch as already pushed, as the Rust `&mut` does. -/
def decodeLoop (src scratch : List Nat) (start fin : Nat) : Except Unit Nat × List Nat :=
  match hm : memchrSlash (sliceList src start fin) with
  | none => (.ok start, scratch)
  | some e =>
    if src.getD (start + e + 1) 0 == 34 then
      decodeLoop src (scratch ++ sliceList src start (start + e) ++ [34]) (start + e + 2) fin
    else if src.getD (start + e + 1) 0 == 92 then
      decodeLoop src (scratch ++ sliceList src start (start + e) ++ [92]) (start + e + 2) fin
    else if src.getD (start + e + 1) 0 == 47 then
      decodeLoop src (scratch ++ sliceList src start (start + e) ++ [47]) (start + e + 2) fin
    else if src.getD (start + e + 1) 0 == 98 then
      decodeLoop src (scratch ++ sliceList src start (start + e) ++ [8]) (start + e + 2) fin
    else if src.getD (start + e + 1) 0 == 102 then
      decodeLoop src (scratch ++ sliceList src start (start + e) ++ [12]) (start + e + 2) fin
    else if src.getD (start + e + 1) 0 == 110 then
      decodeLoop src (scratch ++ sliceList src start (start + e) ++ [10]) (start + e + 2) fin
    else if src.getD (start + e + 1) 0 == 114 then
      decodeLoop src (scratch ++ sliceList src start (start + e) ++ [13]) (start + e + 2) fin
    else if src.getD (start + e + 1) 0 == 116 then
      decodeLoop src (scratch ++ sliceList src start (start + e) ++ [9]) (start + e + 2) fin
    else if src.getD (start + e + 1) 0 == 117 then
      if start + e + 2 + 4 ≤ src.length then
        match hexVal (src.getD (start + e + 2) 0), hexVal (src.getD (start + e + 3) 0),
            hexVal (src.getD (start + e + 4) 0), hexVal (src.getD (start + e + 5) 0) with
        | some a, some b, some c, some d =>
          if 55296 ≤ 4096 * a + 256 * b + 16 * c + d ∧
              4096 * a + 256 * b + 16 * c + d ≤ 57343 then
            (.error (), scratch ++ sliceList src start (start + e))
          else
            decodeLoop src (scratch ++ sliceList src start (start + e) ++
              utf8Encode (4096 * a + 256 * b + 16 * c + d)) (start + e + 6) fin
        | _, _, _, _ => (.error (), scratch ++ sliceList src start (start + e))
      else (.error (), scratch ++ sliceList src start (start + e))
    else (.error (), scratch ++ sliceList src start (start + e))
termination_by fin - start
decreasing_by
  all_goals
    have h1 := memchrSlash_lt_length _ _ hm
    have h2 : (sliceList src start fin).length ≤ fin - start := by
      simp only [sliceList, List.length_drop, List.length_take]
      omega
    omega

/-- `Arena::intern_string`, parameterised by the arena's seeded hash
function `h` (modelling `foldhash`'s `RandomState::hash_one` on the decoded
bytes).  The raw span includes the surrounding quotes.  The hash table probe
(`HashTable::entry`) finds an entry whose stored hash matches and whose
resolved bytes equal the decoded string; on a hit, the scratch is truncated
back to its pre-decode length; on a miss, the new key is inserted. -/
def internString (h : List Nat → Nat) (ar : Arena) (sp : Span) :
    Except Unit StringKey × Arena :=
  let start0 := sp.start + 1
  let fin := sp.stop - 1
  let scratchStart := ar.scratch.length
  match decodeLoop ar.src ar.scratch start0 fin with
  | (.error _, scratch1) => (.error (), { ar with scratch := scratch1 })
  | (.ok start1, scratch1) =>
    if scratchStart < scratch1.length then
      let scratch2 := scratch1 ++ sliceList ar.src start1 fin
      let kspan : Span := ⟨scratch2.length, scratchStart⟩
      let str := sliceList scratch2 scratchStart scratch2.length
      match ar.table.find? (fun k =>
          h (resolveIn ar.src scratch2 k) == h str && resolveIn ar.src scratch2 k == str) with
      | some k => (.ok k, { ar with scratch := scratch2.take scratchStart })
      | none => (.ok ⟨kspan⟩, { ar with scratch := scratch2, table := ar.table ++ [⟨kspan⟩] })
    else
      let kspan : Span := ⟨start1, fin⟩
      let str := sliceList ar.src start1 fin
      match ar.table.find? (fun k =>
          h (resolveIn ar.src scratch1 k) == h str && resolveIn ar.src scratch1 k == str) with
      | some k => (.ok k, { ar with scratch := scratch1.take scratchStart })
      | none => (.ok ⟨kspan⟩, { ar with scratch := scratch1, table := ar.table ++ [⟨kspan⟩] })

/-- `StackItemKind`: the container kind with its watermarks (the recorded
`value_stack` length and, for objects, the `key_stack` length). -/
inductive StackItemKind
  | array (vindex : Nat)
  | object (vindex : Nat) (kindex : Nat)
deriving DecidableEq, Repr

/-- `StackItem`: the byte offset of the opening token plus the kind. -/
structure StackItem where
  start : Nat
  kind : StackItemKind
deriving DecidableEq, Repr

/-- `ContextItem`: what the next token must be. -/
inductive ContextItem
  | waitingKey
  | key (span : Span) (key : StringKey)
  | waitingValue
  | value (span : Span) (kind : ValueKind)
deriving DecidableEq, Repr

/-- `Error` from the source: the offending token (`none` on EOF or lexical
error), its span, the open-container stack taken at failure, and the failing
context. -/
structure Error where
  token : Option Token
  span : Span
  stack : List StackItem
  context : ContextItem
deriving DecidableEq, Repr

/-- The parser's working stacks (the head of `stack` is the innermost open
container; `vstack`/`kstack` grow at their list ends, as the Rust `Vec`s
do, so the Rust watermark indices are `List.take`/`List.drop` positions). -/
structure PState where
  stack : List StackItem
  vstack : List Value
  kstack : List StringKey
deriving DecidableEq, Repr

/-- `Parser::step` for one (successfully lexed) token: the full transition
table of the state machine. Note the close-container arms: when the closed
container is non-empty, the source's `ContextItem::Value { span, value: kind }`
pattern shadows the freshly computed container span `start..span.end`, so the
committed container value carries the LAST CHILD's span `vsp` (only the
empty-container arms commit the `⟨open_start, close_stop⟩` span). -/
def stepTok (h : List Nat → Nat) (ar : Arena) (st : PState) (ctx : ContextItem)
    (t : Token) (sp : Span) : Except Error (PState × ContextItem) × Arena :=
  match t with
  | .leaf v =>
    match ctx with
    | .waitingValue => (.ok (st, .value sp (.leaf v)), ar)
    | .waitingKey =>
      match v with
      | .string =>
        match internString h ar sp with
        | (.ok k, ar1) => (.ok (st, .key sp k), ar1)
        | (.error _, ar1) => (.error ⟨some t, sp, st.stack, .waitingKey⟩, ar1)
      | _ => (.error ⟨some t, sp, st.stack, .waitingKey⟩, ar)
    | c => (.error ⟨some t, sp, st.stack, c⟩, ar)
  | .openObject =>
    match ctx with
    | .waitingValue =>
      (.ok ({ st with
          stack := ⟨sp.start, .object st.vstack.length st.kstack.length⟩ :: st.stack },
        .waitingKey), ar)
    | c => (.error ⟨some t, sp, st.stack, c⟩, ar)
  | .openArray =>
    match ctx with
    | .waitingValue =>
      (.ok ({ st with stack := ⟨sp.start, .array st.vstack.length⟩ :: st.stack },
        .waitingValue), ar)
    | c => (.error ⟨some t, sp, st.stack, c⟩, ar)
  | .closeObject =>
    match st.stack with
    | ⟨s, .object vindex kindex⟩ :: rest =>
      match ctx with
      | .waitingKey =>
        if st.vstack.length == vindex then
          (.ok ({ st with stack := rest }, .value ⟨s, sp.stop⟩ (.object ⟨0, 0⟩ ⟨0, 0⟩)), ar)
        else (.error ⟨some t, sp, rest, .waitingKey⟩, ar)
      | .value vsp vk =>
        let vstack1 := st.vstack ++ [(⟨vsp, vk⟩ : Value)]
        let vi := ar.values.length
        let drained := vstack1.drop vindex
        let vj := vi + drained.length
        let ki := ar.keys.length
        let kdrained := st.kstack.drop kindex
        let kj := ki + kdrained.length
        (.ok (⟨rest, vstack1.take vindex, st.kstack.take kindex⟩,
            .value vsp (.object ⟨ki, kj⟩ ⟨vi, vj⟩)),
          { ar with values := ar.values ++ drained, keys := ar.keys ++ kdrained })
      | c => (.error ⟨some t, sp, rest, c⟩, ar)
    | item :: rest => (.error ⟨some t, sp, item :: rest, ctx⟩, ar)
    | [] => (.error ⟨some t, sp, [], ctx⟩, ar)
  | .closeArray =>
    match st.stack with
    | ⟨s, .array vindex⟩ :: rest =>
      match ctx with
      | .waitingValue =>
        if st.vstack.length == vindex then
          (.ok ({ st with stack := rest }, .value ⟨s, sp.stop⟩ (.array ⟨0, 0⟩)), ar)
        else (.error ⟨some t, sp, rest, .waitingValue⟩, ar)
      | .value vsp vk =>
        let vstack1 := st.vstack ++ [(⟨vsp, vk⟩ : Value)]
        let vi := ar.values.length
        let drained := vstack1.drop vindex
        let vj := vi + drained.length
        (.ok (⟨rest, vstack1.take vindex, st.kstack⟩,
            .value vsp (.array ⟨vi, vj⟩)),
          { ar with values := ar.values ++ drained })
      | c => (.error ⟨some t, sp, rest, c⟩, ar)
    | item :: rest => (.error ⟨some t, sp, item :: rest, ctx⟩, ar)
    | [] => (.error ⟨some t, sp, [], ctx⟩, ar)
  | .colon =>
    match ctx with
    | .key ksp k =>
      match st.stack with
      | ⟨_, .object _ _⟩ :: _ =>
        (.ok ({ st with kstack := st.kstack ++ [k] }, .waitingValue), ar)
      | _ :: _ => (.error ⟨some t, sp, st.stack, .key ksp k⟩, ar)
      | [] => (.error ⟨some t, sp, [], .key ksp k⟩, ar)
    | c => (.error ⟨some t, sp, st.stack, c⟩, ar)
  | .comma =>
    match ctx with
    | .value vsp vk =>
      match st.stack with
      | ⟨_, .object _ _⟩ :: _ =>
        (.ok ({ st with vstack := st.vstack ++ [(⟨vsp, vk⟩ : Value)] }, .waitingKey), ar)
      | ⟨_, .array _⟩ :: _ =>
        (.ok ({ st with vstack := st.vstack ++ [(⟨vsp, vk⟩ : Value)] }, .waitingValue), ar)
      | [] => (.error ⟨some t, sp, [], .value vsp vk⟩, ar)
    | c => (.error ⟨some t, sp, st.stack, c⟩, ar)

/-- The parse loop over the lexed items: a lexical error item or a failed
step ends the parse with an `Error`; exhausting the input accepts exactly
when the stack is empty and the context holds a completed value (otherwise
`Parser::early_eof` reports at span `[len, len)`). -/
def runTokens (h : List Nat → Nat) (ar : Arena) (st : PState) (ctx : ContextItem) :
    List TokR → Except Error Value × Arena
  | [] =>
    match ctx, st.stack with
    | .value sp k, [] => (.ok ⟨sp, k⟩, ar)
    | c, _ => (.error ⟨none, ⟨ar.src.length, ar.src.length⟩, st.stack, c⟩, ar)
  | .error esp :: _ => (.error ⟨none, esp, st.stack, ctx⟩, ar)
  | .ok (t, sp) :: rest =>
    match stepTok h ar st ctx t sp with
    | (.ok (st1, ctx1), ar1) => runTokens h ar1 st1 ctx1 rest
    | (.error e, ar1) => (.error e, ar1)

/-- `parse`, parameterised by the arena's hash function. -/
def parseWith (h : List Nat → Nat) (src : List Nat) : Except Error Value × Arena :=
  runTokens h (Arena.new src) ⟨[], [], []⟩ .waitingValue (tokenize src)

/-- `parse` with a fixed (arbitrary) hash function; `c10_hash_independent`
shows the choice does not matter. -/
def parse (src : List Nat) : Except Error Value × Arena :=
  parseWith (fun _ => 0) src

/-- `YIELD_AFTER`. -/
def YIELD_AFTER : Nat := 4096

/-- The result of one `poll`: finished, or suspended with the preserved
parser state. -/
inductive PollRes
  | done (r : Except Error Value) (ar : Arena)
  | pending (ar : Arena) (st : PState) (ctx : ContextItem) (toks : List TokR)
deriving Repr

/-- `Parser::step_while` with a countdown budget, as one `poll` of
`parse_async` executes it: step until the budget is exhausted (suspend) or
the parse finishes. -/
def pollSteps (h : List Nat → Nat) :
    Nat → Arena → PState → ContextItem → List TokR → PollRes
  | 0, ar, st, ctx, toks => .pending ar st ctx toks
  | _ + 1, ar, st, ctx, [] =>
    match ctx, st.stack with
    | .value sp k, [] => .done (.ok ⟨sp, k⟩) ar
    | c, _ => .done (.error ⟨none, ⟨ar.src.length, ar.src.length⟩, st.stack, c⟩) ar
  | _ + 1, ar, st, ctx, .error esp :: _ => .done (.error ⟨none, esp, st.stack, ctx⟩) ar
  | n + 1, ar, st, ctx, .ok (t, sp) :: rest =>
    match stepTok h ar st ctx t sp with
    | (.ok (st1, ctx1), ar1) => pollSteps h n ar1 st1 ctx1 rest
    | (.error e, ar1) => .done (.error e) ar1


/-- A poll that suspends consumed exactly its budget in lexed items (so each
poll advances, and at most `n` parser steps run per poll). -/
theorem pollSteps_pending_length (h : List Nat → Nat) (n : Nat) :
    ∀ (ar : Arena) (st : PState) (ctx : ContextItem) (toks : List TokR) ar2 st2 ctx2 toks2,
      pollSteps h n ar st ctx toks = .pending ar2 st2 ctx2 toks2 →
      toks2.length + n = toks.length := by
  induction n with
  | zero =>
    intro ar st ctx toks ar2 st2 ctx2 toks2 hh
    simp only [pollSteps] at hh
    cases hh
    omega
  | succ n ih =>
    intro ar st ctx toks ar2 st2 ctx2 toks2 hh
    cases toks with
    | nil =>
      simp only [pollSteps] at hh
      split at hh <;> cases hh
    | cons hd tl =>
      cases hd with
      | error esp =>
        simp only [pollSteps] at hh
        cases hh
      | ok p =>
        obtain ⟨t, sp⟩ := p
        simp only [pollSteps] at hh
        split at hh
        · have := ih _ _ _ _ _ _ _ _ hh
          simp only [List.length_cons]
          omega
        · cases hh

/-- The driver of `parse_async`: run one poll with budget `YIELD_AFTER`;
when the poll suspends, poll again from the preserved state (the executor
wake is immediate in this model). -/
def parseAsyncGo (h : List Nat → Nat) (ar : Arena) (st : PState) (ctx : ContextItem)
    (toks : List TokR) : Except Error Value × Arena :=
  match hp : pollSteps h YIELD_AFTER ar st ctx toks with
  | .done r ar1 => (r, ar1)
  | .pending ar1 st1 ctx1 toks1 => parseAsyncGo h ar1 st1 ctx1 toks1
termination_by toks.length
decreasing_by
  have := pollSteps_pending_length h YIELD_AFTER ar st ctx toks _ _ _ _ hp
  simp [YIELD_AFTER] at this
  omega

/-- `parse_async`, parameterised by the arena's hash function. -/
def parseAsync (h : List Nat → Nat) (src : List Nat) : Except Error Value × Arena :=
  parseAsyncGo h (Arena.new src) ⟨[], [], []⟩ .waitingValue (tokenize src)

/-! ## Facts about the lexer -/

/-- The facts the parser proofs need about a lexed item list starting at
position `i`: bytes before a token are whitespace, token spans are in
bounds, begin and end on non-whitespace bytes, string tokens span at least
the two quotes, and when the list ends all remaining bytes are whitespace.
After a lexical-error item nothing is constrained (the parser stops there). -/
def TokStream (src : List Nat) : Nat → List TokR → Prop
  | i, [] => ∀ j, j < src.length → i ≤ j → isWs (src.getD j 0) = true
  | i, .ok (t, sp) :: rest =>
      (∀ j, j < sp.start → i ≤ j → isWs (src.getD j 0) = true) ∧
      i ≤ sp.start ∧ sp.start < sp.stop ∧ sp.stop ≤ src.length ∧
      isWs (src.getD sp.start 0) = false ∧
      isWs (src.getD (sp.stop - 1) 0) = false ∧
      (t = .leaf .string → sp.start + 2 ≤ sp.stop) ∧
      TokStream src sp.stop rest
  | _, .error _ :: _ => True

theorem numContB_not_ws (b : Nat) (h : numContB b = true) : isWs b = false := by
  simp [numContB, isDigit] at h
  simp [isWs]
  omega

theorem sliceList_length (l : List Nat) (a b : Nat) :
    (sliceList l a b).length = min b l.length - a := by
  simp [sliceList]

theorem sliceList_getD (l : List Nat) (a b m : Nat) (h : m + a < b) :
    (sliceList l a b).getD m 0 = l.getD (a + m) 0 := by
  simp [sliceList, List.getD_eq_getElem?_getD, List.getElem?_drop, List.getElem?_take]
  rw [if_pos (by omega), Nat.add_comm]

theorem numExtra_spec (src : List Nat) (i : Nat) :
    (i ≤ src.length → i + numExtra src i ≤ src.length) ∧
    (∀ m, i ≤ m → m < i + numExtra src i → numContB (src.getD m 0) = true) ∧
    (i + numExtra src i < src.length →
      numContB (src.getD (i + numExtra src i) 0) = false) := by
  induction i using numExtra.induct src with
  | case1 i hi hb ih =>
    rw [numExtra, dif_pos hi, if_pos hb]
    obtain ⟨ih1, ih2, ih3⟩ := ih
    have hb1 : i + 1 ≤ src.length := by omega
    refine ⟨fun _ => by have := ih1 hb1; omega, ?_, ?_⟩
    · intro m hm1 hm2
      rcases Nat.eq_or_lt_of_le hm1 with rfl | hlt
      · exact hb
      · exact ih2 m hlt (by omega)
    · intro hlt
      have heq : i + (numExtra src (i + 1) + 1) = i + 1 + numExtra src (i + 1) := by omega
      rw [heq] at hlt ⊢
      exact ih3 hlt
  | case2 i hi hb =>
    rw [numExtra, dif_pos hi, if_neg hb]
    refine ⟨fun _ => by omega, fun m hm1 hm2 => by omega, fun _ => ?_⟩
    simpa using hb
  | case3 i hi =>
    rw [numExtra, dif_neg hi]
    exact ⟨fun hle => by omega, fun m hm1 hm2 => by omega, fun hlt => by omega⟩

theorem strScanLen_spec (src : List Nat) (i : Nat) :
    ∀ n, strScanLen src i = some n →
      i + n ≤ src.length ∧ 1 ≤ n ∧ src.getD (i + n - 1) 0 = 34 := by
  induction i using strScanLen.induct src with
  | case1 i hi hb =>
    intro n hn
    rw [strScanLen, dif_pos hi] at hn
    simp only [if_pos hb] at hn
    cases hn
    simp at hb
    refine ⟨by omega, by omega, by simpa using hb⟩
  | case2 i hi hb hesc hcont hnl =>
    intro n hn
    rw [strScanLen, dif_pos hi] at hn
    simp only [if_neg hb, if_pos hesc, if_pos hcont, if_pos hnl] at hn
    cases hn
  | case3 i hi hb hesc hcont hnl ih =>
    intro n hn
    rw [strScanLen, dif_pos hi] at hn
    simp only [if_neg hb, if_pos hesc, if_pos hcont, if_neg hnl] at hn
    simp only [Option.map_eq_some'] at hn
    obtain ⟨n1, hn1, rfl⟩ := hn
    obtain ⟨g1, g2, g3⟩ := ih n1 hn1
    refine ⟨by omega, by omega, ?_⟩
    have heq : i + (n1 + 2) - 1 = i + 2 + n1 - 1 := by omega
    rw [heq]
    exact g3
  | case4 i hi hb hesc hcont =>
    intro n hn
    rw [strScanLen, dif_pos hi] at hn
    simp only [if_neg hb, if_pos hesc, if_neg hcont] at hn
    cases hn
  | case5 i hi hb hesc ih =>
    intro n hn
    rw [strScanLen, dif_pos hi] at hn
    simp only [if_neg hb, if_neg hesc] at hn
    simp only [Option.map_eq_some'] at hn
    obtain ⟨n1, hn1, rfl⟩ := hn
    obtain ⟨g1, g2, g3⟩ := ih n1 hn1
    refine ⟨by omega, by omega, ?_⟩
    have heq : i + (n1 + 1) - 1 = i + 1 + n1 - 1 := by omega
    rw [heq]
    exact g3
  | case6 i hi =>
    intro n hn
    rw [strScanLen, dif_neg hi] at hn
    cases hn

theorem keywordAt_spec (src : List Nat) (i : Nat) (kw : List Nat) (h0 : 0 < kw.length)
    (h : keywordAt src i kw = true) :
    i + kw.length ≤ src.length ∧ ∀ m, m < kw.length → src.getD (i + m) 0 = kw.getD m 0 := by
  simp only [keywordAt, beq_iff_eq] at h
  have hlen : (sliceList src i (i + kw.length)).length = kw.length := by rw [h]
  rw [sliceList_length] at hlen
  have hbound : i + kw.length ≤ src.length := by omega
  refine ⟨hbound, fun m hm => ?_⟩
  rw [← sliceList_getD src i (i + kw.length) m (by omega), h]

/-- The facts `TokStream` needs about one emitted token: the token fits in
the source, its last byte is not whitespace, and a string token has at
least its two quotes. -/
theorem tokenAt_spec (src : List Nat) (i : Nat) (t : Token) (extra : Nat)
    (hi : i < src.length) (hw : isWs (src.getD i 0) = false)
    (h : tokenAt src i = some (t, extra)) :
    i + 1 + extra ≤ src.length ∧
    isWs (src.getD (i + extra) 0) = false ∧
    (t = .leaf .string → 1 ≤ extra) := by
  rw [tokenAt] at h
  by_cases h1 : (src.getD i 0 == 123) = true
  · rw [if_pos h1] at h
    simp only [Option.some.injEq, Prod.mk.injEq] at h
    obtain ⟨rfl, rfl⟩ := h
    exact ⟨by omega, by simpa using hw, by simp⟩
  rw [if_neg h1] at h
  by_cases h2 : (src.getD i 0 == 125) = true
  · rw [if_pos h2] at h
    simp only [Option.some.injEq, Prod.mk.injEq] at h
    obtain ⟨rfl, rfl⟩ := h
    exact ⟨by omega, by simpa using hw, by simp⟩
  rw [if_neg h2] at h
  by_cases h3 : (src.getD i 0 == 91) = true
  · rw [if_pos h3] at h
    simp only [Option.some.injEq, Prod.mk.injEq] at h
    obtain ⟨rfl, rfl⟩ := h
    exact ⟨by omega, by simpa using hw, by simp⟩
  rw [if_neg h3] at h
  by_cases h4 : (src.getD i 0 == 93) = true
  · rw [if_pos h4] at h
    simp only [Option.some.injEq, Prod.mk.injEq] at h
    obtain ⟨rfl, rfl⟩ := h
    exact ⟨by omega, by simpa using hw, by simp⟩
  rw [if_neg h4] at h
  by_cases h5 : (src.getD i 0 == 58) = true
  · rw [if_pos h5] at h
    simp only [Option.some.injEq, Prod.mk.injEq] at h
    obtain ⟨rfl, rfl⟩ := h
    exact ⟨by omega, by simpa using hw, by simp⟩
  rw [if_neg h5] at h
  by_cases h6 : (src.getD i 0 == 44) = true
  · rw [if_pos h6] at h
    simp only [Option.some.injEq, Prod.mk.injEq] at h
    obtain ⟨rfl, rfl⟩ := h
    exact ⟨by omega, by simpa using hw, by simp⟩
  rw [if_neg h6] at h
  by_cases h7 : keywordAt src i [102, 97, 108, 115, 101] = true
  · rw [if_pos h7] at h
    simp only [Option.some.injEq, Prod.mk.injEq] at h
    obtain ⟨rfl, rfl⟩ := h
    obtain ⟨hb, hg⟩ := keywordAt_spec src i [102, 97, 108, 115, 101] (by simp) h7
    refine ⟨by simpa using hb, ?_, by simp⟩
    rw [hg 4 (by simp)]
    decide
  rw [if_neg h7] at h
  by_cases h8 : keywordAt src i [116, 114, 117, 101] = true
  · rw [if_pos h8] at h
    simp only [Option.some.injEq, Prod.mk.injEq] at h
    obtain ⟨rfl, rfl⟩ := h
    obtain ⟨hb, hg⟩ := keywordAt_spec src i [116, 114, 117, 101] (by simp) h8
    refine ⟨by simpa using hb, ?_, by simp⟩
    rw [hg 3 (by simp)]
    decide
  rw [if_neg h8] at h
  by_cases h9 : keywordAt src i [110, 117, 108, 108] = true
  · rw [if_pos h9] at h
    simp only [Option.some.injEq, Prod.mk.injEq] at h
    obtain ⟨rfl, rfl⟩ := h
    obtain ⟨hb, hg⟩ := keywordAt_spec src i [110, 117, 108, 108] (by simp) h9
    refine ⟨by simpa using hb, ?_, by simp⟩
    rw [hg 3 (by simp)]
    decide
  rw [if_neg h9] at h
  by_cases h10 : numStartB (src.getD i 0) = true
  · rw [if_pos h10] at h
    simp only [Option.some.injEq, Prod.mk.injEq] at h
    obtain ⟨rfl, rfl⟩ := h
    obtain ⟨hb, hg, -⟩ := numExtra_spec src (i + 1)
    have hbd := hb (by omega)
    refine ⟨by omega, ?_, by simp⟩
    rcases Nat.eq_zero_or_pos (numExtra src (i + 1)) with hz | hp
    · rw [hz]
      simpa using hw
    · have hc := hg (i + numExtra src (i + 1)) (by omega) (by omega)
      exact numContB_not_ws _ hc
  rw [if_neg h10] at h
  by_cases h11 : (src.getD i 0 == 34) = true
  · rw [if_pos h11] at h
    simp only [Option.map_eq_some'] at h
    obtain ⟨n, hn, heq⟩ := h
    simp only [Prod.mk.injEq] at heq
    obtain ⟨rfl, rfl⟩ := heq
    obtain ⟨g1, g2, g3⟩ := strScanLen_spec src (i + 1) n hn
    refine ⟨by omega, ?_, fun _ => by omega⟩
    have heq2 : i + n = i + 1 + n - 1 := by omega
    rw [heq2, g3]
    decide
  rw [if_neg h11] at h
  cases h

/-- Prepending one whitespace byte preserves a well-formed token stream. -/
theorem tokStream_ws_step (src : List Nat) (i : Nat) (ts : List TokR)
    (h : TokStream src (i + 1) ts) (hws : isWs (src.getD i 0) = true) :
    TokStream src i ts := by
  cases ts with
  | nil =>
    simp only [TokStream] at h ⊢
    intro j hj1 hj2
    rcases Nat.eq_or_lt_of_le hj2 with rfl | hlt
    · exact hws
    · exact h j hj1 hlt
  | cons hd tl =>
    cases hd with
    | ok p =>
      obtain ⟨t, sp⟩ := p
      simp only [TokStream] at h ⊢
      obtain ⟨p1, p2, p3⟩ := h
      refine ⟨?_, by omega, p3⟩
      intro j hj1 hj2
      rcases Nat.eq_or_lt_of_le hj2 with rfl | hlt
      · exact hws
      · exact p1 j hj1 hlt
    | error esp =>
      simp only [TokStream]

/-- The lexer produces a well-formed token stream from any position. -/
theorem lexFrom_tokStream (src : List Nat) (i : Nat) : TokStream src i (lexFrom src i) := by
  induction i using lexFrom.induct src with
  | case1 i hi hws ih =>
    rw [lexFrom, dif_pos hi, if_pos hws]
    exact tokStream_ws_step src i _ ih hws
  | case2 i hi hws t extra htok ih =>
    rw [lexFrom, dif_pos hi, if_neg hws, htok]
    obtain ⟨g1, g2, g3⟩ := tokenAt_spec src i t extra hi (by simpa using hws) htok
    simp only [TokStream]
    refine ⟨?_, by omega, by omega, g1, by simpa using hws, by simpa using g2,
      fun hs => by have := g3 hs; omega, ih⟩
    intro j hj1 hj2
    exact absurd hj1 (by omega)
  | case3 i hi hws htok =>
    rw [lexFrom, dif_pos hi, if_neg hws, htok]
    simp only [TokStream]
  | case4 i hi =>
    rw [lexFrom, dif_neg hi]
    simp only [TokStream]
    intro j hj1 hj2
    omega

/-- The token stream of a whole source text is well formed. -/
theorem tokenize_tokStream (src : List Nat) : TokStream src 0 (tokenize src) :=
  lexFrom_tokStream src 0

/-- C7, counterexample: on the input `[1,]` the close token `]` arrives
while the array opened at offset 0 is still on the open stack, yet the
returned error reports `stack = []`: `Parser::step` pops the matching-kind
container before checking the context guard, and the guard-failure path
builds the error from the already-popped stack.  The claim's assertion that
such an error still reports the open container is therefore false. -/
theorem c7_counterexample :
    (parse [91, 49, 44, 93]).1 =
      .error ⟨some .closeArray, ⟨3, 4⟩, [], .waitingValue⟩ := by
  simp [parse, parseWith, tokenize, lexFrom, tokenAt, keywordAt, sliceList, numStartB,
    numContB, isDigit, isWs, numExtra, runTokens, stepTok, Arena.new]

/-- C7, amended: every error of a failed step carries the offending token,
the token's span and the failing context, and its reported stack is the
open-container stack at failure, except that a close token which pops a
matching-kind container and then fails the context check reports the stack
with that container already popped; unexpected EOF reports token `none` at
span `[len, len)` with the current stack and context, and a lexical error
reports token `none` with the error item's span, the current stack and
context. -/
theorem c7_amended :
    (∀ (h : List Nat → Nat) (ar : Arena) (st : PState) (ctx : ContextItem)
        (t : Token) (sp : Span) (e : Error) (ar2 : Arena),
      stepTok h ar st ctx t sp = (.error e, ar2) →
      e.token = some t ∧ e.span = sp ∧ e.context = ctx ∧
      (e.stack = st.stack ∨
        (t = .closeObject ∧
          ∃ s vi ki rest, st.stack = ⟨s, .object vi ki⟩ :: rest ∧ e.stack = rest) ∨
        (t = .closeArray ∧
          ∃ s vi rest, st.stack = ⟨s, .array vi⟩ :: rest ∧ e.stack = rest))) ∧
    (∀ (h : List Nat → Nat) (ar : Arena) (st : PState) (ctx : ContextItem)
        (e : Error) (ar2 : Arena),
      runTokens h ar st ctx [] = (.error e, ar2) →
      e = ⟨none, ⟨ar.src.length, ar.src.length⟩, st.stack, ctx⟩) ∧
    (∀ (h : List Nat → Nat) (ar : Arena) (st : PState) (ctx : ContextItem)
        (esp : Span) (rest : List TokR) (e : Error) (ar2 : Arena),
      runTokens h ar st ctx (.error esp :: rest) = (.error e, ar2) →
      e = ⟨none, esp, st.stack, ctx⟩) := by
  refine ⟨?_, ?_, ?_⟩
  · intro h ar st ctx t sp e ar2 hstep
    obtain ⟨stk, vstk, kstk⟩ := st
    cases t with
    | leaf v =>
      cases ctx with
      | waitingValue => simp [stepTok] at hstep
      | waitingKey =>
        cases v with
        | string =>
          rcases hI : internString h ar sp with ⟨r, ar1⟩
          cases r with
          | ok k =>
            rw [stepTok] at hstep
            simp only [hI] at hstep
            simp at hstep
          | error u =>
            rw [stepTok] at hstep
            simp only [hI] at hstep
            simp only [Prod.mk.injEq, Except.error.injEq] at hstep
            obtain ⟨rfl, rfl⟩ := hstep
            exact ⟨rfl, rfl, rfl, .inl rfl⟩
        | bool b =>
          simp only [stepTok, Prod.mk.injEq, Except.error.injEq] at hstep
          obtain ⟨rfl, rfl⟩ := hstep
          exact ⟨rfl, rfl, rfl, .inl rfl⟩
        | null =>
          simp only [stepTok, Prod.mk.injEq, Except.error.injEq] at hstep
          obtain ⟨rfl, rfl⟩ := hstep
          exact ⟨rfl, rfl, rfl, .inl rfl⟩
        | number =>
          simp only [stepTok, Prod.mk.injEq, Except.error.injEq] at hstep
          obtain ⟨rfl, rfl⟩ := hstep
          exact ⟨rfl, rfl, rfl, .inl rfl⟩
      | key ksp k =>
        simp only [stepTok, Prod.mk.injEq, Except.error.injEq] at hstep
        obtain ⟨rfl, rfl⟩ := hstep
        exact ⟨rfl, rfl, rfl, .inl rfl⟩
      | value vsp vk =>
        simp only [stepTok, Prod.mk.injEq, Except.error.injEq] at hstep
        obtain ⟨rfl, rfl⟩ := hstep
        exact ⟨rfl, rfl, rfl, .inl rfl⟩
    | openObject =>
      cases ctx with
      | waitingValue => simp [stepTok] at hstep
      | waitingKey =>
        simp only [stepTok, Prod.mk.injEq, Except.error.injEq] at hstep
        obtain ⟨rfl, rfl⟩ := hstep
        exact ⟨rfl, rfl, rfl, .inl rfl⟩
      | key ksp k =>
        simp only [stepTok, Prod.mk.injEq, Except.error.injEq] at hstep
        obtain ⟨rfl, rfl⟩ := hstep
        exact ⟨rfl, rfl, rfl, .inl rfl⟩
      | value vsp vk =>
        simp only [stepTok, Prod.mk.injEq, Except.error.injEq] at hstep
        obtain ⟨rfl, rfl⟩ := hstep
        exact ⟨rfl, rfl, rfl, .inl rfl⟩
    | openArray =>
      cases ctx with
      | waitingValue => simp [stepTok] at hstep
      | waitingKey =>
        simp only [stepTok, Prod.mk.injEq, Except.error.injEq] at hstep
        obtain ⟨rfl, rfl⟩ := hstep
        exact ⟨rfl, rfl, rfl, .inl rfl⟩
      | key ksp k =>
        simp only [stepTok, Prod.mk.injEq, Except.error.injEq] at hstep
        obtain ⟨rfl, rfl⟩ := hstep
        exact ⟨rfl, rfl, rfl, .inl rfl⟩
      | value vsp vk =>
        simp only [stepTok, Prod.mk.injEq, Except.error.injEq] at hstep
        obtain ⟨rfl, rfl⟩ := hstep
        exact ⟨rfl, rfl, rfl, .inl rfl⟩
    | closeObject =>
      cases stk with
      | nil =>
        simp only [stepTok, Prod.mk.injEq, Except.error.injEq] at hstep
        obtain ⟨rfl, rfl⟩ := hstep
        exact ⟨rfl, rfl, rfl, .inl rfl⟩
      | cons item rest =>
        obtain ⟨s, kind⟩ := item
        cases kind with
        | object vi ki =>
          cases ctx with
          | waitingKey =>
            simp only [stepTok] at hstep
            by_cases hg : (vstk.length == vi) = true
            · rw [if_pos hg] at hstep
              simp at hstep
            · rw [if_neg hg] at hstep
              simp only [Prod.mk.injEq, Except.error.injEq] at hstep
              obtain ⟨rfl, rfl⟩ := hstep
              exact ⟨rfl, rfl, rfl, .inr (.inl ⟨rfl, s, vi, ki, rest, rfl, rfl⟩)⟩
          | value vsp vk =>
            simp only [stepTok] at hstep
            simp at hstep
          | waitingValue =>
            simp only [stepTok, Prod.mk.injEq, Except.error.injEq] at hstep
            obtain ⟨rfl, rfl⟩ := hstep
            exact ⟨rfl, rfl, rfl, .inr (.inl ⟨rfl, s, vi, ki, rest, rfl, rfl⟩)⟩
          | key ksp k =>
            simp only [stepTok, Prod.mk.injEq, Except.error.injEq] at hstep
            obtain ⟨rfl, rfl⟩ := hstep
            exact ⟨rfl, rfl, rfl, .inr (.inl ⟨rfl, s, vi, ki, rest, rfl, rfl⟩)⟩
        | array vi =>
          simp only [stepTok, Prod.mk.injEq, Except.error.injEq] at hstep
          obtain ⟨rfl, rfl⟩ := hstep
          exact ⟨rfl, rfl, rfl, .inl rfl⟩
    | closeArray =>
      cases stk with
      | nil =>
        simp only [stepTok, Prod.mk.injEq, Except.error.injEq] at hstep
        obtain ⟨rfl, rfl⟩ := hstep
        exact ⟨rfl, rfl, rfl, .inl rfl⟩
      | cons item rest =>
        obtain ⟨s, kind⟩ := item
        cases kind with
        | array vi =>
          cases ctx with
          | waitingValue =>
            simp only [stepTok] at hstep
            by_cases hg : (vstk.length == vi) = true
            · rw [if_pos hg] at hstep
              simp at hstep
            · rw [if_neg hg] at hstep
              simp only [Prod.mk.injEq, Except.error.injEq] at hstep
              obtain ⟨rfl, rfl⟩ := hstep
              exact ⟨rfl, rfl, rfl, .inr (.inr ⟨rfl, s, vi, rest, rfl, rfl⟩)⟩
          | value vsp vk =>
            simp only [stepTok] at hstep
            simp at hstep
          | waitingKey =>
            simp only [stepTok, Prod.mk.injEq, Except.error.injEq] at hstep
            obtain ⟨rfl, rfl⟩ := hstep
            exact ⟨rfl, rfl, rfl, .inr (.inr ⟨rfl, s, vi, rest, rfl, rfl⟩)⟩
          | key ksp k =>
            simp only [stepTok, Prod.mk.injEq, Except.error.injEq] at hstep
            obtain ⟨rfl, rfl⟩ := hstep
            exact ⟨rfl, rfl, rfl, .inr (.inr ⟨rfl, s, vi, rest, rfl, rfl⟩)⟩
        | object vi ki =>
          simp only [stepTok, Prod.mk.injEq, Except.error.injEq] at hstep
          obtain ⟨rfl, rfl⟩ := hstep
          exact ⟨rfl, rfl, rfl, .inl rfl⟩
    | colon =>
      cases ctx with
      | key ksp k =>
        cases stk with
        | nil =>
          simp only [stepTok, Prod.mk.injEq, Except.error.injEq] at hstep
          obtain ⟨rfl, rfl⟩ := hstep
          exact ⟨rfl, rfl, rfl, .inl rfl⟩
        | cons item rest =>
          obtain ⟨s, kind⟩ := item
          cases kind with
          | object vi ki =>
            simp only [stepTok] at hstep
            simp at hstep
          | array vi =>
            simp only [stepTok, Prod.mk.injEq, Except.error.injEq] at hstep
            obtain ⟨rfl, rfl⟩ := hstep
            exact ⟨rfl, rfl, rfl, .inl rfl⟩
      | waitingValue =>
        simp only [stepTok, Prod.mk.injEq, Except.error.injEq] at hstep
        obtain ⟨rfl, rfl⟩ := hstep
        exact ⟨rfl, rfl, rfl, .inl rfl⟩
      | waitingKey =>
        simp only [stepTok, Prod.mk.injEq, Except.error.injEq] at hstep
        obtain ⟨rfl, rfl⟩ := hstep
        exact ⟨rfl, rfl, rfl, .inl rfl⟩
      | value vsp vk =>
        simp only [stepTok, Prod.mk.injEq, Except.error.injEq] at hstep
        obtain ⟨rfl, rfl⟩ := hstep
        exact ⟨rfl, rfl, rfl, .inl rfl⟩
    | comma =>
      cases ctx with
      | value vsp vk =>
        cases stk with
        | nil =>
          simp only [stepTok, Prod.mk.injEq, Except.error.injEq] at hstep
          obtain ⟨rfl, rfl⟩ := hstep
          exact ⟨rfl, rfl, rfl, .inl rfl⟩
        | cons item rest =>
          obtain ⟨s, kind⟩ := item
          cases kind with
          | object vi ki =>
            simp only [stepTok] at hstep
            simp at hstep
          | array vi =>
            simp only [stepTok] at hstep
            simp at hstep
      | waitingValue =>
        simp only [stepTok, Prod.mk.injEq, Except.error.injEq] at hstep
        obtain ⟨rfl, rfl⟩ := hstep
        exact ⟨rfl, rfl, rfl, .inl rfl⟩
      | waitingKey =>
        simp only [stepTok, Prod.mk.injEq, Except.error.injEq] at hstep
        obtain ⟨rfl, rfl⟩ := hstep
        exact ⟨rfl, rfl, rfl, .inl rfl⟩
      | key ksp k =>
        simp only [stepTok, Prod.mk.injEq, Except.error.injEq] at hstep
        obtain ⟨rfl, rfl⟩ := hstep
        exact ⟨rfl, rfl, rfl, .inl rfl⟩
  · intro h ar st ctx e ar2 hrun
    obtain ⟨stk, vstk, kstk⟩ := st
    cases stk with
    | nil =>
      cases ctx with
      | value vsp vk =>
        simp only [runTokens] at hrun
        simp at hrun
      | waitingValue =>
        simp only [runTokens, Prod.mk.injEq, Except.error.injEq] at hrun
        obtain ⟨rfl, rfl⟩ := hrun
        rfl
      | waitingKey =>
        simp only [runTokens, Prod.mk.injEq, Except.error.injEq] at hrun
        obtain ⟨rfl, rfl⟩ := hrun
        rfl
      | key ksp k =>
        simp only [runTokens, Prod.mk.injEq, Except.error.injEq] at hrun
        obtain ⟨rfl, rfl⟩ := hrun
        rfl
    | cons item rest =>
      cases ctx with
      | value vsp vk =>
        simp only [runTokens, Prod.mk.injEq, Except.error.injEq] at hrun
        obtain ⟨rfl, rfl⟩ := hrun
        rfl
      | waitingValue =>
        simp only [runTokens, Prod.mk.injEq, Except.error.injEq] at hrun
        obtain ⟨rfl, rfl⟩ := hrun
        rfl
      | waitingKey =>
        simp only [runTokens, Prod.mk.injEq, Except.error.injEq] at hrun
        obtain ⟨rfl, rfl⟩ := hrun
        rfl
      | key ksp k =>
        simp only [runTokens, Prod.mk.injEq, Except.error.injEq] at hrun
        obtain ⟨rfl, rfl⟩ := hrun
        rfl
  · intro h ar st ctx esp rest e ar2 hrun
    rw [runTokens] at hrun
    simp only [Prod.mk.injEq, Except.error.injEq] at hrun
    obtain ⟨rfl, rfl⟩ := hrun
    rfl

/-- C7, witness for the amended claim: one concrete failed step (the `]` of
`[1,]`, where the popped array is omitted from the reported stack), one
concrete EOF error and one concrete lexical error. -/
theorem c7_amended_witness :
    ((Error.mk (some .closeArray) ⟨3, 4⟩ [] .waitingValue).token = some Token.closeArray ∧
      (Error.mk (some .closeArray) ⟨3, 4⟩ [] .waitingValue).span = ⟨3, 4⟩ ∧
      (Error.mk (some .closeArray) ⟨3, 4⟩ [] .waitingValue).context = .waitingValue ∧
      ((Error.mk (some .closeArray) ⟨3, 4⟩ [] .waitingValue).stack =
          (PState.mk [⟨0, .array 0⟩] [⟨⟨1, 2⟩, .leaf .number⟩] []).stack ∨
        (Token.closeArray = .closeObject ∧
          ∃ s vi ki rest, (PState.mk [⟨0, .array 0⟩] [⟨⟨1, 2⟩, .leaf .number⟩] []).stack =
              ⟨s, .object vi ki⟩ :: rest ∧
            (Error.mk (some .closeArray) ⟨3, 4⟩ [] .waitingValue).stack = rest) ∨
        (Token.closeArray = .closeArray ∧
          ∃ s vi rest, (PState.mk [⟨0, .array 0⟩] [⟨⟨1, 2⟩, .leaf .number⟩] []).stack =
              ⟨s, .array vi⟩ :: rest ∧
            (Error.mk (some .closeArray) ⟨3, 4⟩ [] .waitingValue).stack = rest))) ∧
    (Error.mk none ⟨1, 1⟩ [⟨0, .object 0 0⟩] .waitingKey =
      ⟨none, ⟨(Arena.new [123]).src.length, (Arena.new [123]).src.length⟩,
        (PState.mk [⟨0, .object 0 0⟩] [] []).stack, .waitingKey⟩) := by
  constructor
  · exact c7_amended.1 (fun _ => 0) (Arena.new [91, 49, 44, 93])
      ⟨[⟨0, .array 0⟩], [⟨⟨1, 2⟩, .leaf .number⟩], []⟩ .waitingValue .closeArray ⟨3, 4⟩
      ⟨some .closeArray, ⟨3, 4⟩, [], .waitingValue⟩ (Arena.new [91, 49, 44, 93])
      (by simp [stepTok])
  · exact c7_amended.2.1 (fun _ => 0) (Arena.new [123])
      ⟨[⟨0, .object 0 0⟩], [], []⟩ .waitingKey
      ⟨none, ⟨1, 1⟩, [⟨0, .object 0 0⟩], .waitingKey⟩ (Arena.new [123])
      (by simp [runTokens, Arena.new])

/-! ## Claim C4 -/

/-- No backslash in the list means the backslash search fails. -/
theorem memchrSlash_none_of (l : List Nat) (h : ∀ x ∈ l, x ≠ 92) :
    memchrSlash l = none := by
  induction l with
  | nil => rfl
  | cons a t ih =>
    have ha : a ≠ 92 := h a (by simp)
    simp only [memchrSlash, ih (fun x hx => h x (by simp [hx]))]
    simp [ha]

/-- Members of a byte slice are bytes of the list at in-range positions. -/
theorem sliceList_mem_iff (l : List Nat) (a b x : Nat) :
    x ∈ sliceList l a b ↔
      ∃ q, a ≤ q ∧ q < b ∧ q < l.length ∧ l.getD q 0 = x := by
  constructor
  · intro hx
    obtain ⟨m, hm, hget⟩ := List.getElem_of_mem hx
    refine ⟨a + m, by omega, ?_, ?_, ?_⟩
    · have := sliceList_length l a b
      omega
    · have := sliceList_length l a b
      omega
    · rw [← sliceList_getD l a b m (by have := sliceList_length l a b; omega)]
      rw [List.getD_eq_getElem?_getD, List.getElem?_eq_getElem hm, hget]
      rfl
  · rintro ⟨q, hq1, hq2, hq3, rfl⟩
    have hlt : q - a < (sliceList l a b).length := by
      have := sliceList_length l a b
      omega
    have hget : (sliceList l a b).getD (q - a) 0 = l.getD q 0 := by
      have := sliceList_getD l a b (q - a) (by omega)
      rw [this]
      congr 1
      omega
    rw [← hget]
    rw [List.getD_eq_getElem?_getD, List.getElem?_eq_getElem hlt]
    exact List.getElem_mem hlt

/-- C4: for an object key token occupying `[a,b)` with no escape byte in its
unquoted content, interning succeeds and resolving the returned `StringKey`
through the arena yields exactly `source[a+1 .. b-1]`; and resolution always
follows the disambiguation rule (a span with `stop ≥ start` reads the
source, one with `stop < start` reads `scratch[stop..start]`). -/
theorem c4_resolve_roundtrip :
    (∀ (h : List Nat → Nat) (ar : Arena) (sp : Span),
      sp.start + 2 ≤ sp.stop →
      (∀ x ∈ sliceList ar.src (sp.start + 1) (sp.stop - 1), x ≠ 92) →
      ∃ k ar1, internString h ar sp = (.ok k, ar1) ∧
        ar1.resolve k = sliceList ar.src (sp.start + 1) (sp.stop - 1)) ∧
    (∀ (ar : Arena) (k : StringKey),
      ar.resolve k = if k.span.stop < k.span.start
        then sliceList ar.scratch k.span.stop k.span.start
        else sliceList ar.src k.span.start k.span.stop) := by
  constructor
  · intro h ar sp hlen hnoesc
    have hD : decodeLoop ar.src ar.scratch (sp.start + 1) (sp.stop - 1) =
        (.ok (sp.start + 1), ar.scratch) := by
      unfold decodeLoop
      split
      · rfl
      · next e hm =>
        rw [memchrSlash_none_of _ hnoesc] at hm
        cases hm
    rw [internString]
    simp only [hD]
    rw [if_neg (by omega)]
    rcases hF : ar.table.find? (fun k =>
        h (resolveIn ar.src ar.scratch k) == h (sliceList ar.src (sp.start + 1) (sp.stop - 1)) &&
        resolveIn ar.src ar.scratch k == sliceList ar.src (sp.start + 1) (sp.stop - 1)) with - | k
    · simp only [hF]
      refine ⟨⟨⟨sp.start + 1, sp.stop - 1⟩⟩, _, rfl, ?_⟩
      show resolveIn ar.src ar.scratch _ = _
      rw [resolveIn, if_neg (by simp; omega)]
    · simp only [hF]
      refine ⟨k, _, rfl, ?_⟩
      have hp := List.find?_some hF
      simp only [Bool.and_eq_true, beq_iff_eq] at hp
      show resolveIn ar.src (ar.scratch.take ar.scratch.length) k = _
      rw [List.take_length]
      exact hp.2
  · intro ar k
    rfl

/-- C4, witness: interning the key token `"ab"` of the source `"ab"` (bytes
`[34, 97, 98, 34]`) succeeds and resolves to `ab` (bytes `[97, 98]`). -/
theorem c4_resolve_roundtrip_witness :
    ∃ k ar1, internString (fun _ => 0) (Arena.new [34, 97, 98, 34]) ⟨0, 4⟩ = (.ok k, ar1) ∧
      ar1.resolve k = sliceList (Arena.new [34, 97, 98, 34]).src (0 + 1) (4 - 1) :=
  c4_resolve_roundtrip.1 (fun _ => 0) (Arena.new [34, 97, 98, 34]) ⟨0, 4⟩
    (by decide) (by decide)

/-! ## Claim C6 -/

/-- The three interner error kinds named by the spec. -/
inductive KeyError
  | invalidEscape
  | truncatedUnicodeEscape
  | invalidCodePoint
deriving DecidableEq, Repr

/-- The spec's decoding-failure conditions, as a pure scan over the raw key
content `src[p..fin)` (one byte at a time, no scratch bookkeeping): the
first error, or `none` when every escape decodes.  `invalidEscape` is an
unknown control byte after a backslash, `truncatedUnicodeEscape` a `\u`
without four parseable hex digits remaining in the source, and
`invalidCodePoint` a `\u` escape denoting a lone surrogate half in
`D800..DFFF`. -/
def keyScanErr (src : List Nat) (p fin : Nat) : Option KeyError :=
  if hp : p < fin then
    if src.getD p 0 == 92 then
      if src.getD (p + 1) 0 == 34 || src.getD (p + 1) 0 == 92 ||
          src.getD (p + 1) 0 == 47 || src.getD (p + 1) 0 == 98 ||
          src.getD (p + 1) 0 == 102 || src.getD (p + 1) 0 == 110 ||
          src.getD (p + 1) 0 == 114 || src.getD (p + 1) 0 == 116 then
        keyScanErr src (p + 2) fin
      else if src.getD (p + 1) 0 == 117 then
        if p + 2 + 4 ≤ src.length then
          match hexVal (src.getD (p + 2) 0), hexVal (src.getD (p + 3) 0),
              hexVal (src.getD (p + 4) 0), hexVal (src.getD (p + 5) 0) with
          | some a, some b, some c, some d =>
            if 55296 ≤ 4096 * a + 256 * b + 16 * c + d ∧
                4096 * a + 256 * b + 16 * c + d ≤ 57343 then
              some .invalidCodePoint
            else keyScanErr src (p + 6) fin
          | _, _, _, _ => some .truncatedUnicodeEscape
        else some .truncatedUnicodeEscape
      else some .invalidEscape
    else keyScanErr src (p + 1) fin
  else none
termination_by fin - p

/-- Did the decode loop fail? -/
def decodeErrB (r : Except Unit Nat × List Nat) : Bool :=
  match r.1 with
  | .error _ => true
  | .ok _ => false

/-- Did interning fail? -/
def internIsErr (r : Except Unit StringKey) : Bool :=
  match r with
  | .error _ => true
  | .ok _ => false

theorem memchrSlash_some_spec (l : List Nat) (e : Nat) (he : memchrSlash l = some e) :
    e < l.length ∧ l.getD e 0 = 92 ∧ ∀ m, m < e → l.getD m 0 ≠ 92 := by
  induction l generalizing e with
  | nil => simp [memchrSlash] at he
  | cons a t ih =>
    by_cases ha : (a == 92) = true
    · simp only [memchrSlash, if_pos ha] at he
      cases he
      refine ⟨by simp, by simpa using ha, by omega⟩
    · simp only [memchrSlash, if_neg ha] at he
      simp only [Option.map_eq_some'] at he
      obtain ⟨e1, he1, rfl⟩ := he
      obtain ⟨g1, g2, g3⟩ := ih e1 he1
      refine ⟨by simp; omega, by simpa using g2, ?_⟩
      intro m hm
      cases m with
      | zero => simpa using ha
      | succ m2 =>
        intro hh
        exact g3 m2 (by omega) (by simpa using hh)

theorem memchrSlash_none_forall (l : List Nat) (h : memchrSlash l = none) :
    ∀ x ∈ l, x ≠ 92 := by
  induction l with
  | nil => simp
  | cons a t ih =>
    by_cases ha : (a == 92) = true
    · simp only [memchrSlash, if_pos ha] at h
      cases h
    · simp only [memchrSlash, if_neg ha] at h
      simp only [Option.map_eq_none'] at h
      intro x hx
      rcases List.mem_cons.mp hx with rfl | hx2
      · simpa using ha
      · exact ih h x hx2

theorem getD_of_ge_length (l : List Nat) (q : Nat) (h : l.length ≤ q) :
    l.getD q 0 = 0 := by
  rw [List.getD_eq_getElem?_getD, List.getElem?_eq_none h]
  rfl

theorem memchrSlash_none_pointwise (src : List Nat) (p fin : Nat)
    (hm : memchrSlash (sliceList src p fin) = none) :
    ∀ q, p ≤ q → q < fin → src.getD q 0 ≠ 92 := by
  intro q hq1 hq2 hq92
  by_cases hql : q < src.length
  · have hmem : (92 : Nat) ∈ sliceList src p fin :=
      (sliceList_mem_iff src p fin 92).mpr ⟨q, hq1, hq2, hql, hq92⟩
    exact memchrSlash_none_forall _ hm 92 hmem rfl
  · rw [getD_of_ge_length src q (by omega)] at hq92
    omega

theorem memchrSlash_some_pointwise (src : List Nat) (p fin e : Nat)
    (hm : memchrSlash (sliceList src p fin) = some e) :
    p + e < fin ∧ p + e < src.length ∧ src.getD (p + e) 0 = 92 ∧
    ∀ q, p ≤ q → q < p + e → src.getD q 0 ≠ 92 := by
  obtain ⟨g1, g2, g3⟩ := memchrSlash_some_spec _ e hm
  rw [sliceList_length] at g1
  have hb1 : p + e < fin := by omega
  have hb2 : p + e < src.length := by omega
  refine ⟨hb1, hb2, ?_, ?_⟩
  · rw [← sliceList_getD src p fin e (by omega)]
    exact g2
  · intro q hq1 hq2
    have := g3 (q - p) (by omega)
    rw [sliceList_getD src p fin (q - p) (by omega)] at this
    have heq : p + (q - p) = q := by omega
    rw [heq] at this
    exact this

/-- Positions with no backslash can be skipped without changing the scan. -/
theorem keyScanErr_skip (src : List Nat) (fin : Nat) :
    ∀ (d p : Nat), (∀ q, p ≤ q → q < p + d → src.getD q 0 ≠ 92) → p + d ≤ fin →
      keyScanErr src p fin = keyScanErr src (p + d) fin := by
  intro d
  induction d with
  | zero => intro p hno hle; rfl
  | succ d2 ih =>
    intro p hno hle
    have hp : p < fin := by omega
    have hp92 : ¬((src.getD p 0 == 92) = true) := by
      simpa using hno p (by omega) (by omega)
    rw [keyScanErr, dif_pos hp, if_neg hp92]
    have := ih (p + 1) (fun q hq1 hq2 => hno q (by omega) (by omega)) (by omega)
    rw [this]
    congr 1
    omega

theorem keyScanErr_none_of_clean (src : List Nat) (p fin : Nat)
    (hno : ∀ q, p ≤ q → q < fin → src.getD q 0 ≠ 92) :
    keyScanErr src p fin = none := by
  by_cases hp : p < fin
  · have := keyScanErr_skip src fin (fin - p) p
      (fun q hq1 hq2 => hno q hq1 (by omega)) (by omega)
    rw [this, keyScanErr, dif_neg (by omega)]
  · rw [keyScanErr, dif_neg hp]

/-- The decode loop of the interner fails exactly when the spec's scan of
the same content reports one of the three error kinds (and the scratch it
was given plays no role in failing). -/
theorem decodeLoop_err_eq (src : List Nat) (fin : Nat) :
    ∀ (N p : Nat) (scratch : List Nat), fin - p ≤ N →
      decodeErrB (decodeLoop src scratch p fin) = (keyScanErr src p fin).isSome := by
  intro N
  induction N with
  | zero =>
    intro p scratch hN
    have hm : memchrSlash (sliceList src p fin) = none := by
      apply memchrSlash_none_of
      intro x hx
      rw [sliceList_mem_iff] at hx
      obtain ⟨q, hq1, hq2, _, _⟩ := hx
      omega
    unfold decodeLoop
    split
    · rw [keyScanErr_none_of_clean src p fin (fun q hq1 hq2 => by omega)]
      rfl
    · next e hm2 =>
      rw [hm] at hm2
      cases hm2
  | succ N2 ih =>
    intro p scratch hN
    unfold decodeLoop
    split
    · next hm =>
      rw [keyScanErr_none_of_clean src p fin (memchrSlash_none_pointwise src p fin hm)]
      rfl
    · next e hm =>
      obtain ⟨hb1, hb2, he92, hfirst⟩ := memchrSlash_some_pointwise src p fin e hm
      rw [keyScanErr_skip src fin e p hfirst (by omega)]
      rw [keyScanErr, dif_pos hb1,
        if_pos (show (src.getD (p + e) 0 == 92) = true from by simpa using he92)]
      by_cases h34 : (src.getD (p + e + 1) 0 == 34) = true
      · rw [if_pos h34, if_pos (by simp at h34 ⊢; tauto)]
        exact ih (p + e + 2) _ (by omega)
      rw [if_neg h34]
      by_cases h92 : (src.getD (p + e + 1) 0 == 92) = true
      · rw [if_pos h92, if_pos (by simp at h92 ⊢; tauto)]
        exact ih (p + e + 2) _ (by omega)
      rw [if_neg h92]
      by_cases h47 : (src.getD (p + e + 1) 0 == 47) = true
      · rw [if_pos h47, if_pos (by simp at h47 ⊢; tauto)]
        exact ih (p + e + 2) _ (by omega)
      rw [if_neg h47]
      by_cases h98 : (src.getD (p + e + 1) 0 == 98) = true
      · rw [if_pos h98, if_pos (by simp at h98 ⊢; tauto)]
        exact ih (p + e + 2) _ (by omega)
      rw [if_neg h98]
      by_cases h102 : (src.getD (p + e + 1) 0 == 102) = true
      · rw [if_pos h102, if_pos (by simp at h102 ⊢; tauto)]
        exact ih (p + e + 2) _ (by omega)
      rw [if_neg h102]
      by_cases h110 : (src.getD (p + e + 1) 0 == 110) = true
      · rw [if_pos h110, if_pos (by simp at h110 ⊢; tauto)]
        exact ih (p + e + 2) _ (by omega)
      rw [if_neg h110]
      by_cases h114 : (src.getD (p + e + 1) 0 == 114) = true
      · rw [if_pos h114, if_pos (by simp at h114 ⊢; tauto)]
        exact ih (p + e + 2) _ (by omega)
      rw [if_neg h114]
      by_cases h116 : (src.getD (p + e + 1) 0 == 116) = true
      · rw [if_pos h116, if_pos (by simp at h116 ⊢; tauto)]
        exact ih (p + e + 2) _ (by omega)
      rw [if_neg h116]
      rw [if_neg (show ¬((src.getD (p + e + 1) 0 == 34 || src.getD (p + e + 1) 0 == 92 ||
          src.getD (p + e + 1) 0 == 47 || src.getD (p + e + 1) 0 == 98 ||
          src.getD (p + e + 1) 0 == 102 || src.getD (p + e + 1) 0 == 110 ||
          src.getD (p + e + 1) 0 == 114 || src.getD (p + e + 1) 0 == 116) = true) from by
        simp at h34 h92 h47 h98 h102 h110 h114 h116 ⊢
        tauto)]
      by_cases h117 : (src.getD (p + e + 1) 0 == 117) = true
      · rw [if_pos h117, if_pos h117]
        by_cases hbound : p + e + 2 + 4 ≤ src.length
        · rw [if_pos hbound, if_pos hbound]
          rcases hA : hexVal (src.getD (p + e + 2) 0) with - | a
          · simp only [hA]
            rfl
          rcases hB : hexVal (src.getD (p + e + 3) 0) with - | b
          · simp only [hA, hB]
            rfl
          rcases hC : hexVal (src.getD (p + e + 4) 0) with - | c
          · simp only [hA, hB, hC]
            rfl
          rcases hD : hexVal (src.getD (p + e + 5) 0) with - | d
          · simp only [hA, hB, hC, hD]
            rfl
          simp only [hA, hB, hC, hD]
          by_cases hsur : 55296 ≤ 4096 * a + 256 * b + 16 * c + d ∧
              4096 * a + 256 * b + 16 * c + d ≤ 57343
          · rw [if_pos hsur, if_pos hsur]
            rfl
          · rw [if_neg hsur, if_neg hsur]
            exact ih (p + e + 6) _ (by omega)
        · rw [if_neg hbound, if_neg hbound]
          rfl
      · rw [if_neg h117, if_neg h117]
        rfl

/-- When the decode loop succeeds, interning always returns a key (the
lookup-or-insert step cannot fail). -/
theorem internString_ok (h : List Nat → Nat) (ar : Arena) (sp : Span) (start1 : Nat)
    (scr : List Nat)
    (hD : decodeLoop ar.src ar.scratch (sp.start + 1) (sp.stop - 1) = (.ok start1, scr)) :
    ∃ k ar1, internString h ar sp = (.ok k, ar1) := by
  simp only [internString, hD]
  split
  · split
    · exact ⟨_, _, rfl⟩
    · exact ⟨_, _, rfl⟩
  · split
    · exact ⟨_, _, rfl⟩
    · exact ⟨_, _, rfl⟩

/-- When the decode loop fails, interning fails with the pushed scratch. -/
theorem internString_err (h : List Nat → Nat) (ar : Arena) (sp : Span) (scr : List Nat)
    (hD : decodeLoop ar.src ar.scratch (sp.start + 1) (sp.stop - 1) = (.error (), scr)) :
    internString h ar sp = (.error (), { ar with scratch := scr }) := by
  simp only [internString, hD]

/-- C6: interning an object key fails exactly when the spec's scan of the
raw content (between the quotes) hits one of the three error kinds — an
unknown control byte after a backslash, a `\u` without four parseable hex
digits remaining, or a `\u` denoting a lone surrogate in `D800..DFFF` —
so the interner never produces a fallback key and fails at no other point;
and a key whose scan fails makes the parse return an error when it is
consumed in key position. -/
theorem c6_intern_errors :
    (∀ (h : List Nat → Nat) (ar : Arena) (sp : Span),
      internIsErr (internString h ar sp).1 =
        (keyScanErr ar.src (sp.start + 1) (sp.stop - 1)).isSome) ∧
    (∀ (h : List Nat → Nat) (ar : Arena) (st : PState) (sp : Span) (rest : List TokR),
      (keyScanErr ar.src (sp.start + 1) (sp.stop - 1)).isSome = true →
      ∃ e ar1, runTokens h ar st .waitingKey (.ok (.leaf .string, sp) :: rest) =
        (.error e, ar1)) := by
  have key : ∀ (h : List Nat → Nat) (ar : Arena) (sp : Span),
      internIsErr (internString h ar sp).1 =
        (keyScanErr ar.src (sp.start + 1) (sp.stop - 1)).isSome := by
    intro h ar sp
    rcases hD : decodeLoop ar.src ar.scratch (sp.start + 1) (sp.stop - 1) with ⟨r, scr⟩
    have hEq := decodeLoop_err_eq ar.src (sp.stop - 1) (sp.stop - 1) (sp.start + 1) ar.scratch
      (by omega)
    rw [hD] at hEq
    cases r with
    | error u =>
      simp only [decodeErrB] at hEq
      rw [internString_err h ar sp scr hD]
      exact hEq
    | ok start1 =>
      simp only [decodeErrB] at hEq
      obtain ⟨k, ar1, hOk⟩ := internString_ok h ar sp start1 scr hD
      rw [hOk]
      exact hEq
  constructor
  · exact key
  · intro h ar st sp rest hscan
    have hk := key h ar sp
    rw [hscan] at hk
    rcases hI : internString h ar sp with ⟨r, ar1⟩
    cases r with
    | ok k =>
      rw [hI] at hk
      simp [internIsErr] at hk
    | error u =>
      refine ⟨⟨some (.leaf .string), sp, st.stack, .waitingKey⟩, ar1, ?_⟩
      rw [runTokens]
      rw [stepTok]
      simp only [hI]

/-- C6, witness: the key token `"\q"` (bytes `[34, 92, 113, 34]`) has an
unknown control byte after the backslash; its scan reports an error and its
intern fails, and in key position the parse errors. -/
theorem c6_intern_errors_witness :
    ∃ e ar1, runTokens (fun _ => 0) (Arena.new [34, 92, 113, 34]) ⟨[⟨0, .object 0 0⟩], [], []⟩
        .waitingKey [.ok (.leaf .string, ⟨0, 4⟩)] = (.error e, ar1) :=
  c6_intern_errors.2 (fun _ => 0) (Arena.new [34, 92, 113, 34]) ⟨[⟨0, .object 0 0⟩], [], []⟩
    ⟨0, 4⟩ []
    (by simp [keyScanErr, Arena.new, hexVal])

/-! ## Claim C10 -/

/-- The interner's probe compares hashes and then the resolved bytes, but
for any hash function computed from the resolved bytes the hash comparison
is redundant: the probe finds exactly the entries whose resolved bytes
equal the decoded string. -/
theorem find_pred_hash_redundant (h : List Nat → Nat) (src scratch str : List Nat)
    (table : List StringKey) :
    table.find? (fun k =>
        h (resolveIn src scratch k) == h str && resolveIn src scratch k == str) =
      table.find? (fun k => resolveIn src scratch k == str) := by
  induction table with
  | nil => rfl
  | cons a t ih =>
    by_cases ha : resolveIn src scratch a = str
    · simp [List.find?_cons, ha]
    · have hb : (resolveIn src scratch a == str) = false := by simpa using ha
      simp only [List.find?_cons, hb, Bool.and_false]
      exact ih

/-- `Arena::intern_string` does not depend on the arena's hash seed. -/
theorem internString_hash_irrel (h1 h2 : List Nat → Nat) (ar : Arena) (sp : Span) :
    internString h1 ar sp = internString h2 ar sp := by
  rcases hD : decodeLoop ar.src ar.scratch (sp.start + 1) (sp.stop - 1) with ⟨r, scr⟩
  cases r with
  | error u => simp only [internString, hD]
  | ok start1 =>
    simp only [internString, hD]
    by_cases hgrow : ar.scratch.length < scr.length
    · rw [if_pos hgrow, if_pos hgrow, find_pred_hash_redundant h1, find_pred_hash_redundant h2]
    · rw [if_neg hgrow, if_neg hgrow, find_pred_hash_redundant h1, find_pred_hash_redundant h2]

/-- One parser step does not depend on the arena's hash seed. -/
theorem stepTok_hash_irrel (h1 h2 : List Nat → Nat) (ar : Arena) (st : PState)
    (ctx : ContextItem) (t : Token) (sp : Span) :
    stepTok h1 ar st ctx t sp = stepTok h2 ar st ctx t sp := by
  cases t with
  | leaf v =>
    cases ctx with
    | waitingKey =>
      cases v with
      | string =>
        simp only [stepTok]
        rw [internString_hash_irrel h1 h2]
      | bool b => rfl
      | null => rfl
      | number => rfl
    | waitingValue => rfl
    | key ksp k => rfl
    | value vsp vk => rfl
  | openObject => rfl
  | openArray => rfl
  | closeObject => rfl
  | closeArray => rfl
  | colon => rfl
  | comma => rfl

/-- The parse loop does not depend on the arena's hash seed. -/
theorem runTokens_hash_irrel (h1 h2 : List Nat → Nat) :
    ∀ (toks : List TokR) (ar : Arena) (st : PState) (ctx : ContextItem),
      runTokens h1 ar st ctx toks = runTokens h2 ar st ctx toks := by
  intro toks
  induction toks with
  | nil => intro ar st ctx; rfl
  | cons hd tl ih =>
    intro ar st ctx
    cases hd with
    | error esp => rfl
    | ok p =>
      obtain ⟨t, sp⟩ := p
      rw [runTokens, runTokens, stepTok_hash_irrel h1 h2]
      rcases hS : stepTok h2 ar st ctx t sp with ⟨r, ar1⟩
      cases r with
      | ok pr =>
        obtain ⟨st1, ctx1⟩ := pr
        simp only [hS]
        exact ih ar1 st1 ctx1
      | error e => simp only [hS]

/-- C10: `parse` is deterministic in the source text alone — for any two
per-arena hash seedings (modelled as arbitrary hash functions over the
decoded key bytes), parsing the same input produces identical results and
byte-identical arenas (same keys vector, values vector, scratch and interner
table), so the random seed never influences any `StringKey` handle, span or
emitted `Value`. -/
theorem c10_hash_independent (h1 h2 : List Nat → Nat) (src : List Nat) :
    parseWith h1 src = parseWith h2 src :=
  runTokens_hash_irrel h1 h2 (tokenize src) (Arena.new src) ⟨[], [], []⟩ .waitingValue

/-! ## Claim C8 -/

/-- At the end of the lexed input, one budgeted poll step finishes with
exactly the result of the synchronous loop. -/
theorem pollSteps_nil (h : List Nat → Nat) (n : Nat) (ar : Arena) (st : PState)
    (ctx : ContextItem) :
    pollSteps h (n + 1) ar st ctx [] =
      .done (runTokens h ar st ctx []).1 (runTokens h ar st ctx []).2 := by
  obtain ⟨stk, vstk, kstk⟩ := st
  cases ctx <;> cases stk <;> rfl

/-- A finished poll returns what the synchronous loop returns, and a
suspended poll preserves the synchronous loop's continuation. -/
theorem pollSteps_run (h : List Nat → Nat) :
    ∀ (n : Nat) (ar : Arena) (st : PState) (ctx : ContextItem) (toks : List TokR),
      (∀ r ar1, pollSteps h n ar st ctx toks = .done r ar1 →
        runTokens h ar st ctx toks = (r, ar1)) ∧
      (∀ ar1 st1 ctx1 toks1, pollSteps h n ar st ctx toks = .pending ar1 st1 ctx1 toks1 →
        runTokens h ar st ctx toks = runTokens h ar1 st1 ctx1 toks1) := by
  intro n
  induction n with
  | zero =>
    intro ar st ctx toks
    constructor
    · intro r ar1 hp
      simp only [pollSteps] at hp
      cases hp
    · intro ar1 st1 ctx1 toks1 hp
      simp only [pollSteps] at hp
      cases hp
      rfl
  | succ n ih =>
    intro ar st ctx toks
    cases toks with
    | nil =>
      rw [pollSteps_nil]
      constructor
      · intro r ar1 hp
        cases hp
        rfl
      · intro ar1 st1 ctx1 toks1 hp
        cases hp
    | cons hd tl =>
      cases hd with
      | error esp =>
        constructor
        · intro r ar1 hp
          simp only [pollSteps] at hp
          cases hp
          rfl
        · intro ar1 st1 ctx1 toks1 hp
          simp only [pollSteps] at hp
          cases hp
      | ok p =>
        obtain ⟨t, sp⟩ := p
        rcases hS : stepTok h ar st ctx t sp with ⟨r0, arS⟩
        cases r0 with
        | ok pr =>
          obtain ⟨st1, ctx1⟩ := pr
          constructor
          · intro r ar1 hp
            simp only [pollSteps, hS] at hp
            rw [runTokens, hS]
            exact (ih arS st1 ctx1 tl).1 r ar1 hp
          · intro ar2 st2 ctx2 toks2 hp
            simp only [pollSteps, hS] at hp
            rw [runTokens, hS]
            exact (ih arS st1 ctx1 tl).2 ar2 st2 ctx2 toks2 hp
        | error e =>
          constructor
          · intro r ar1 hp
            simp only [pollSteps, hS] at hp
            rw [runTokens, hS]
            cases hp
            rfl
          · intro ar2 st2 ctx2 toks2 hp
            simp only [pollSteps, hS] at hp
            cases hp

/-- The cooperative driver computes exactly the synchronous loop. -/
theorem parseAsyncGo_eq (h : List Nat → Nat) :
    ∀ (N : Nat) (toks : List TokR) (ar : Arena) (st : PState) (ctx : ContextItem),
      toks.length ≤ N → parseAsyncGo h ar st ctx toks = runTokens h ar st ctx toks := by
  intro N
  induction N with
  | zero =>
    intro toks ar st ctx hlen
    rcases hp : pollSteps h YIELD_AFTER ar st ctx toks with ⟨r, ar1⟩ | ⟨ar1, st1, ctx1, toks1⟩
    · rw [parseAsyncGo, hp]
      exact ((pollSteps_run h YIELD_AFTER ar st ctx toks).1 r ar1 hp).symm
    · have := pollSteps_pending_length h YIELD_AFTER ar st ctx toks ar1 st1 ctx1 toks1 hp
      simp [YIELD_AFTER] at this
      omega
  | succ N ih =>
    intro toks ar st ctx hlen
    rcases hp : pollSteps h YIELD_AFTER ar st ctx toks with ⟨r, ar1⟩ | ⟨ar1, st1, ctx1, toks1⟩
    · rw [parseAsyncGo, hp]
      exact ((pollSteps_run h YIELD_AFTER ar st ctx toks).1 r ar1 hp).symm
    · rw [parseAsyncGo, hp]
      have hlen2 := pollSteps_pending_length h YIELD_AFTER ar st ctx toks ar1 st1 ctx1 toks1 hp
      exact (ih toks1 ar1 st1 ctx1 (by simp [YIELD_AFTER] at hlen2; omega)).trans
        ((pollSteps_run h YIELD_AFTER ar st ctx toks).2 ar1 st1 ctx1 toks1 hp).symm

/-- C8: for every input and hash seeding, `parse_async` returns exactly what
`parse` returns — the identical root `Value` on success, the identical
error otherwise — and leaves a byte-identical arena (same keys vector,
values vector, scratch and table); and a poll that suspends has executed
exactly its token budget, so each poll of `parse_async` (budget
`YIELD_AFTER = 4096`) executes at most 4096 parser steps before yielding. -/
theorem c8_async_equiv :
    (∀ (h : List Nat → Nat) (src : List Nat), parseAsync h src = parseWith h src) ∧
    (∀ (h : List Nat → Nat) (n : Nat) (ar : Arena) (st : PState) (ctx : ContextItem)
        (toks : List TokR) (ar1 : Arena) (st1 : PState) (ctx1 : ContextItem)
        (toks1 : List TokR),
      pollSteps h n ar st ctx toks = .pending ar1 st1 ctx1 toks1 →
      toks1.length + n = toks.length ∧ toks.length - toks1.length ≤ n) := by
  constructor
  · intro h src
    exact parseAsyncGo_eq h (tokenize src).length (tokenize src) (Arena.new src)
      ⟨[], [], []⟩ .waitingValue (by omega)
  · intro h n ar st ctx toks ar1 st1 ctx1 toks1 hp
    have := pollSteps_pending_length h n ar st ctx toks ar1 st1 ctx1 toks1 hp
    omega

/-- C8, witness: a poll with budget 1 on the single token `[` suspends
having consumed exactly one token. -/
theorem c8_async_equiv_witness :
    ([] : List TokR).length + 1 = ([.ok (.openArray, ⟨0, 1⟩)] : List TokR).length ∧
    ([.ok (.openArray, ⟨0, 1⟩)] : List TokR).length - ([] : List TokR).length ≤ 1 := by
  refine c8_async_equiv.2 (fun _ => 0) 1 (Arena.new [91]) ⟨[], [], []⟩ .waitingValue
    [.ok (.openArray, ⟨0, 1⟩)] (Arena.new [91]) ⟨[⟨0, .array 0⟩], [], []⟩ .waitingValue [] ?_
  simp [pollSteps, stepTok, Arena.new]

/-! ## Claim C9 -/

/-- The deep-nesting input: `N` opening brackets followed by `N` closing
brackets. -/
def brkSrc (N : Nat) : List Nat := List.replicate N 91 ++ List.replicate N 93

/-- `k` open-bracket tokens starting at byte `p`. -/
def opensFrom (p : Nat) : Nat → List TokR
  | 0 => []
  | k + 1 => .ok (.openArray, ⟨p, p + 1⟩) :: opensFrom (p + 1) k

/-- `k` close-bracket tokens starting at byte `p`. -/
def closesFrom (p : Nat) : Nat → List TokR
  | 0 => []
  | k + 1 => .ok (.closeArray, ⟨p, p + 1⟩) :: closesFrom (p + 1) k

/-- The open stack after opening `k` arrays at bytes `p, p+1, …` with an
empty value stack (innermost first). -/
def openItems (p : Nat) : Nat → List StackItem
  | 0 => []
  | k + 1 => openItems (p + 1) k ++ [⟨p, .array 0⟩]

/-- The values drained to the arena while closing `k` nested arrays whose
currently completed value is `⟨vsp, vkind⟩`, with `L` values already in the
arena. Because of the span-shadowing bug in `Parser::step`, every committed
container inherits the span `vsp` of the innermost completed value. -/
def chainVals (L : Nat) (vsp : Span) (vkind : ValueKind) : Nat → List Value
  | 0 => []
  | k + 1 => ⟨vsp, vkind⟩ :: chainVals (L + 1) vsp (.array ⟨L, L + 1⟩) k

/-- The final completed value after closing `k` nested arrays as in
`chainVals`: it too carries the innermost span `vsp`. -/
def chainFinal (L : Nat) (vsp : Span) (vkind : ValueKind) : Nat → Value
  | 0 => ⟨vsp, vkind⟩
  | k + 1 => chainFinal (L + 1) vsp (.array ⟨L, L + 1⟩) k

theorem openItems_cons (p k : Nat) :
    openItems p (k + 1) = ⟨p + k, .array 0⟩ :: openItems p k := by
  induction k generalizing p with
  | zero => rfl
  | succ k2 ih =>
    show openItems (p + 1) (k2 + 1) ++ [⟨p, .array 0⟩] = _
    rw [ih (p + 1)]
    show ⟨p + 1 + k2, .array 0⟩ :: (openItems (p + 1) k2 ++ [⟨p, .array 0⟩]) = _
    have heq : p + 1 + k2 = p + (k2 + 1) := by omega
    rw [heq]
    rfl

theorem brkSrc_length (N : Nat) : (brkSrc N).length = 2 * N := by
  simp [brkSrc]
  omega

theorem brkSrc_getD_open (N i : Nat) (hi : i < N) : (brkSrc N).getD i 0 = 91 := by
  rw [brkSrc, List.getD_append _ _ _ _ (by simp; omega)]
  rw [List.getD_eq_getElem?_getD, List.getElem?_replicate]
  simp [hi]

theorem brkSrc_getD_close (N i : Nat) (hi1 : N ≤ i) (hi2 : i < 2 * N) :
    (brkSrc N).getD i 0 = 93 := by
  rw [brkSrc, List.getD_append_right _ _ _ _ (by simp; omega)]
  rw [List.getD_eq_getElem?_getD, List.getElem?_replicate]
  simp only [List.length_replicate]
  rw [if_pos (by omega)]
  rfl

theorem tokenAt_of_91 (src : List Nat) (i : Nat) (hb : src.getD i 0 = 91) :
    tokenAt src i = some (.openArray, 0) := by
  rw [tokenAt, hb]
  rfl

theorem tokenAt_of_93 (src : List Nat) (i : Nat) (hb : src.getD i 0 = 93) :
    tokenAt src i = some (.closeArray, 0) := by
  rw [tokenAt, hb]
  rfl

theorem lexFrom_brk_opens (N : Nat) :
    ∀ (k i : Nat), i + k = N →
      lexFrom (brkSrc N) i = opensFrom i k ++ lexFrom (brkSrc N) N := by
  intro k
  induction k with
  | zero =>
    intro i hi
    have heq : i = N := by omega
    rw [heq]
    rfl
  | succ k2 ih =>
    intro i hi
    have hb := brkSrc_getD_open N i (by omega)
    rw [lexFrom, dif_pos (by rw [brkSrc_length]; omega), hb]
    rw [show isWs 91 = false from rfl]
    simp only [Bool.false_eq_true, if_false]
    rw [tokenAt_of_91 (brkSrc N) i hb]
    show .ok (.openArray, ⟨i, i + 1⟩) :: lexFrom (brkSrc N) (i + 1) =
      opensFrom i (k2 + 1) ++ lexFrom (brkSrc N) N
    rw [ih (i + 1) (by omega)]
    rfl

theorem lexFrom_brk_closes (N : Nat) :
    ∀ (k i : Nat), i + k = 2 * N → N ≤ i →
      lexFrom (brkSrc N) i = closesFrom i k := by
  intro k
  induction k with
  | zero =>
    intro i hi hN
    rw [lexFrom, dif_neg (by rw [brkSrc_length]; omega)]
    rfl
  | succ k2 ih =>
    intro i hi hN
    have hb := brkSrc_getD_close N i hN (by omega)
    rw [lexFrom, dif_pos (by rw [brkSrc_length]; omega), hb]
    rw [show isWs 93 = false from rfl]
    simp only [Bool.false_eq_true, if_false]
    rw [tokenAt_of_93 (brkSrc N) i hb]
    show .ok (.closeArray, ⟨i, i + 1⟩) :: lexFrom (brkSrc N) (i + 1) = closesFrom i (k2 + 1)
    rw [ih (i + 1) (by omega) (by omega)]
    rfl

theorem tokenize_brk (N : Nat) :
    tokenize (brkSrc N) = opensFrom 0 N ++ closesFrom N N := by
  rw [tokenize, lexFrom_brk_opens N N 0 (by omega),
    lexFrom_brk_closes N N N (by omega) (by omega)]

/-- Opening `k` arrays pushes `k` stack items and nothing else. -/
theorem runTokens_opens (h : List Nat → Nat) :
    ∀ (k p : Nat) (ar : Arena) (stk : List StackItem) (ks : List StringKey)
      (rest : List TokR),
      runTokens h ar ⟨stk, [], ks⟩ .waitingValue (opensFrom p k ++ rest) =
        runTokens h ar ⟨openItems p k ++ stk, [], ks⟩ .waitingValue rest := by
  intro k
  induction k with
  | zero => intro p ar stk ks rest; rfl
  | succ k2 ih =>
    intro p ar stk ks rest
    show runTokens h ar ⟨stk, [], ks⟩ .waitingValue
      (.ok (.openArray, ⟨p, p + 1⟩) :: (opensFrom (p + 1) k2 ++ rest)) = _
    rw [runTokens]
    rw [show stepTok h ar ⟨stk, [], ks⟩ .waitingValue .openArray ⟨p, p + 1⟩ =
      (.ok (⟨⟨p, .array 0⟩ :: stk, [], ks⟩, .waitingValue), ar) from rfl]
    show runTokens h ar ⟨⟨p, .array 0⟩ :: stk, [], ks⟩ .waitingValue
      (opensFrom (p + 1) k2 ++ rest) = _
    rw [ih (p + 1) ar (⟨p, .array 0⟩ :: stk) ks rest]
    rw [show openItems p (k2 + 1) ++ stk = openItems (p + 1) k2 ++ (⟨p, .array 0⟩ :: stk) by
      show (openItems (p + 1) k2 ++ [⟨p, .array 0⟩]) ++ stk = _
      rw [List.append_assoc]
      rfl]

/-- Closing `k` nested arrays from a completed value drains the chain into
the arena and accepts. -/
theorem runTokens_closes (h : List Nat → Nat) :
    ∀ (k q : Nat) (ar : Arena) (vsp : Span) (vkind : ValueKind),
      runTokens h ar ⟨openItems 0 k, [], []⟩ (.value vsp vkind) (closesFrom q k) =
        (.ok (chainFinal ar.values.length vsp vkind k),
         { ar with values := ar.values ++ chainVals ar.values.length vsp vkind k }) := by
  intro k
  induction k with
  | zero =>
    intro q ar vsp vkind
    show runTokens h ar ⟨[], [], []⟩ (.value vsp vkind) [] = _
    rw [chainVals, chainFinal, List.append_nil]
    rfl
  | succ k2 ih =>
    intro q ar vsp vkind
    rw [openItems_cons 0 k2]
    show runTokens h ar ⟨⟨0 + k2, .array 0⟩ :: openItems 0 k2, [], []⟩ (.value vsp vkind)
      (.ok (.closeArray, ⟨q, q + 1⟩) :: closesFrom (q + 1) k2) = _
    rw [runTokens]
    rw [show stepTok h ar ⟨⟨0 + k2, .array 0⟩ :: openItems 0 k2, [], []⟩ (.value vsp vkind)
        .closeArray ⟨q, q + 1⟩ =
      (.ok (⟨openItems 0 k2, [], []⟩,
        .value vsp (.array ⟨ar.values.length, ar.values.length + 1⟩)),
       { ar with values := ar.values ++ [⟨vsp, vkind⟩] }) from rfl]
    show runTokens h { ar with values := ar.values ++ [(⟨vsp, vkind⟩ : Value)] }
      ⟨openItems 0 k2, [], []⟩
      (.value vsp (.array ⟨ar.values.length, ar.values.length + 1⟩))
      (closesFrom (q + 1) k2) = _
    rw [ih (q + 1) { ar with values := ar.values ++ [⟨vsp, vkind⟩] } vsp
      (.array ⟨ar.values.length, ar.values.length + 1⟩)]
    have hL : ({ ar with values := ar.values ++ [(⟨vsp, vkind⟩ : Value)] } : Arena).values.length
        = ar.values.length + 1 := by simp
    rw [hL, chainFinal, chainVals]
    show (Except.ok (chainFinal (ar.values.length + 1) vsp
        (.array ⟨ar.values.length, ar.values.length + 1⟩) k2),
      (⟨ar.src, ar.scratch, ar.table, ar.keys,
        (ar.values ++ [⟨vsp, vkind⟩]) ++ chainVals (ar.values.length + 1) vsp
          (.array ⟨ar.values.length, ar.values.length + 1⟩) k2⟩ : Arena)) =
      (Except.ok (chainFinal (ar.values.length + 1) vsp
        (.array ⟨ar.values.length, ar.values.length + 1⟩) k2),
      (⟨ar.src, ar.scratch, ar.table, ar.keys,
        ar.values ++ ⟨vsp, vkind⟩ :: chainVals (ar.values.length + 1) vsp
          (.array ⟨ar.values.length, ar.values.length + 1⟩) k2⟩ : Arena))
    rw [List.append_assoc]
    rfl

/-- The exact parse of the `N`-deep bracket input, for `N ≥ 1`. -/
theorem parseWith_brk (h : List Nat → Nat) (M : Nat) :
    parseWith h (brkSrc (M + 1)) =
      (.ok (chainFinal 0 ⟨M, M + 2⟩ (.array ⟨0, 0⟩) M),
       ⟨brkSrc (M + 1), [], [], [],
        chainVals 0 ⟨M, M + 2⟩ (.array ⟨0, 0⟩) M⟩) := by
  rw [parseWith, tokenize_brk (M + 1)]
  rw [show Arena.new (brkSrc (M + 1)) = ⟨brkSrc (M + 1), [], [], [], []⟩ from rfl]
  rw [runTokens_opens h (M + 1) 0 ⟨brkSrc (M + 1), [], [], [], []⟩ [] []
    (closesFrom (M + 1) (M + 1))]
  rw [List.append_nil, openItems_cons 0 M]
  show runTokens h ⟨brkSrc (M + 1), [], [], [], []⟩ ⟨⟨0 + M, .array 0⟩ :: openItems 0 M, [], []⟩
    .waitingValue (.ok (.closeArray, ⟨M + 1, M + 1 + 1⟩) :: closesFrom (M + 1 + 1) M) = _
  rw [runTokens]
  rw [show stepTok h ⟨brkSrc (M + 1), [], [], [], []⟩
      ⟨⟨0 + M, .array 0⟩ :: openItems 0 M, [], []⟩ .waitingValue .closeArray ⟨M + 1, M + 1 + 1⟩ =
    (.ok (⟨openItems 0 M, [], []⟩, .value ⟨0 + M, M + 1 + 1⟩ (.array ⟨0, 0⟩)),
     ⟨brkSrc (M + 1), [], [], [], []⟩) from rfl]
  show runTokens h ⟨brkSrc (M + 1), [], [], [], []⟩ ⟨openItems 0 M, [], []⟩
    (.value ⟨0 + M, M + 1 + 1⟩ (.array ⟨0, 0⟩)) (closesFrom (M + 1 + 1) M) = _
  rw [runTokens_closes h M (M + 1 + 1) ⟨brkSrc (M + 1), [], [], [], []⟩ ⟨0 + M, M + 1 + 1⟩
    (.array ⟨0, 0⟩)]
  have h1 : (0 : Nat) + M = M := by omega
  have h2 : M + 1 + 1 = M + 2 := by omega
  rw [h1, h2]
  rfl

theorem chainFinal_closed :
    ∀ (k L : Nat) (vsp : Span) (vkd : ValueKind),
      chainFinal L vsp vkd k =
        if k = 0 then ⟨vsp, vkd⟩ else ⟨vsp, .array ⟨L + k - 1, L + k⟩⟩ := by
  intro k
  induction k with
  | zero => intro L vsp vkd; rfl
  | succ k2 ih =>
    intro L vsp vkd
    rw [chainFinal, ih (L + 1) vsp (.array ⟨L, L + 1⟩)]
    rw [show (if k2 + 1 = 0 then (⟨vsp, vkd⟩ : Value)
      else ⟨vsp, .array ⟨L + (k2 + 1) - 1, L + (k2 + 1)⟩⟩) =
      ⟨vsp, .array ⟨L + (k2 + 1) - 1, L + (k2 + 1)⟩⟩ from if_neg (by omega)]
    by_cases h0 : k2 = 0
    · subst h0
      rw [if_pos rfl]
      have e2 : L + (0 + 1) - 1 = L := by omega
      have e3 : L + (0 + 1) = L + 1 := by omega
      rw [e2, e3]
    · rw [if_neg h0]
      have e2 : L + 1 + k2 - 1 = L + (k2 + 1) - 1 := by omega
      have e3 : L + 1 + k2 = L + (k2 + 1) := by omega
      rw [e2, e3]

theorem chainVals_closed :
    ∀ (k L : Nat) (vsp : Span) (vkd : ValueKind) (m : Nat), m < k →
      (chainVals L vsp vkd k).getD m ⟨⟨0, 0⟩, .leaf .null⟩ =
        if m = 0 then ⟨vsp, vkd⟩ else ⟨vsp, .array ⟨L + m - 1, L + m⟩⟩ := by
  intro k
  induction k with
  | zero => intro L vsp vkd m hm; omega
  | succ k2 ih =>
    intro L vsp vkd m hm
    rw [chainVals]
    cases m with
    | zero => rw [List.getD_cons_zero, if_pos rfl]
    | succ m2 =>
      rw [List.getD_cons_succ]
      rw [ih (L + 1) vsp (.array ⟨L, L + 1⟩) m2 (by omega)]
      rw [show (if m2 + 1 = 0 then (⟨vsp, vkd⟩ : Value)
        else ⟨vsp, .array ⟨L + (m2 + 1) - 1, L + (m2 + 1)⟩⟩) =
        ⟨vsp, .array ⟨L + (m2 + 1) - 1, L + (m2 + 1)⟩⟩ from if_neg (by omega)]
      by_cases h0 : m2 = 0
      · subst h0
        rw [if_pos rfl]
        have e3 : L + (0 + 1) - 1 = L := by omega
        have e4 : L + (0 + 1) = L + 1 := by omega
        rw [e3, e4]
      · rw [if_neg h0]
        have e3 : L + (m2 + 1) - 1 = L + 1 + m2 - 1 := by omega
        have e4 : L + (m2 + 1) = L + 1 + m2 := by omega
        rw [e3, e4]

theorem chainVals_length :
    ∀ (k L : Nat) (vsp : Span) (vkd : ValueKind), (chainVals L vsp vkd k).length = k := by
  intro k
  induction k with
  | zero => intro L vsp vkd; rfl
  | succ k2 ih =>
    intro L vsp vkd
    rw [chainVals]
    simp only [List.length_cons]
    rw [ih]

/-- C9 counterexample: at `N = 0` the bracket input is empty and `parse`
rejects it with an unexpected-EOF error, so "for every N" fails. -/
theorem c9_counterexample :
    (parse (brkSrc 0)).1 = .error ⟨none, ⟨0, 0⟩, [], .waitingValue⟩ := by
  simp [parse, parseWith, brkSrc, tokenize, lexFrom, runTokens, Arena.new]

/-- C9 (amended): `parse` is a total function, and for every `N ≥ 1` the
input of `N` opening brackets followed by `N` closing brackets parses
successfully into `N` nested `Array` values laid out innermost-first in the
arena. Because of the span-shadowing bug in `Parser::step`, the root and
every committed array carry the span `[N-1, N+1)` of the innermost `[]`
(only that innermost, empty array's span is computed; every enclosing close
re-commits the shadowed child span). The `N = 0` instance instead errors at
EOF. -/
theorem c9_amended (h : List Nat → Nat) (N : Nat) (hN : 1 ≤ N) :
    (parseWith h (brkSrc N)).1 =
        .ok ⟨⟨N - 1, N + 1⟩, .array (if N = 1 then ⟨0, 0⟩ else ⟨N - 2, N - 1⟩)⟩ ∧
      (parseWith h (brkSrc N)).2.values.length = N - 1 ∧
      (∀ m, m < N - 1 →
        (parseWith h (brkSrc N)).2.values.getD m ⟨⟨0, 0⟩, .leaf .null⟩ =
          ⟨⟨N - 1, N + 1⟩, .array (if m = 0 then ⟨0, 0⟩ else ⟨m - 1, m⟩)⟩) ∧
      (parseWith h (brkSrc N)).2.scratch = [] ∧
      (parseWith h (brkSrc N)).2.keys = [] := by
  obtain ⟨M, rfl⟩ : ∃ M, N = M + 1 := ⟨N - 1, by omega⟩
  rw [parseWith_brk h M]
  refine ⟨?_, ?_, ?_, rfl, rfl⟩
  · show Except.ok (chainFinal 0 ⟨M, M + 2⟩ (.array ⟨0, 0⟩) M) = _
    rw [chainFinal_closed M 0 ⟨M, M + 2⟩ (.array ⟨0, 0⟩)]
    have e1 : M + 1 - 1 = M := by omega
    have e2 : M + 1 + 1 = M + 2 := by omega
    rw [e1, e2]
    by_cases h0 : M = 0
    · subst h0
      rfl
    · rw [if_neg h0, if_neg (by omega : ¬ M + 1 = 1)]
      have e3 : (0 : Nat) + M - 1 = M + 1 - 2 := by omega
      have e4 : (0 : Nat) + M = M := by omega
      rw [e3, e4]
  · show (chainVals 0 ⟨M, M + 2⟩ (.array ⟨0, 0⟩) M).length = _
    rw [chainVals_length M 0 ⟨M, M + 2⟩ (.array ⟨0, 0⟩)]
    omega
  · intro m hm
    show (chainVals 0 ⟨M, M + 2⟩ (.array ⟨0, 0⟩) M).getD m ⟨⟨0, 0⟩, .leaf .null⟩ = _
    rw [chainVals_closed M 0 ⟨M, M + 2⟩ (.array ⟨0, 0⟩) m (by omega)]
    have e1 : M + 1 - 1 = M := by omega
    have e2 : M + 1 + 1 = M + 2 := by omega
    rw [e1, e2]
    by_cases h0 : m = 0
    · subst h0
      rw [if_pos rfl, if_pos rfl]
    · rw [if_neg h0, if_neg h0]
      have e3 : (0 : Nat) + m - 1 = m - 1 := by omega
      have e4 : (0 : Nat) + m = m := by omega
      rw [e3, e4]

theorem c9_amended_witness :
    (1 ≤ 3 ∧
      (parseWith (fun _ => 0) (brkSrc 3)).1 =
        .ok ⟨⟨3 - 1, 3 + 1⟩, .array (if 3 = 1 then ⟨0, 0⟩ else ⟨3 - 2, 3 - 1⟩)⟩) ∧
    (parseWith (fun _ => 0) (brkSrc 3)).2.values.length = 3 - 1 :=
  ⟨⟨by decide, (c9_amended (fun _ => 0) 3 (by decide)).1⟩,
   (c9_amended (fun _ => 0) 3 (by decide)).2.1⟩

/-! ## Claim C1 -/

/-- `sp` is exactly the whitespace-trimmed extent of `src`: it starts at the
first non-whitespace byte and stops one past the last non-whitespace byte. -/
def IsTrimSpan (src : List Nat) (sp : Span) : Prop :=
  sp.start < sp.stop ∧ sp.stop ≤ src.length ∧
  (∀ j, j < sp.start → isWs (src.getD j 0) = true) ∧
  isWs (src.getD sp.start 0) = false ∧
  isWs (src.getD (sp.stop - 1) 0) = false ∧
  (∀ j, sp.stop ≤ j → j < src.length → isWs (src.getD j 0) = true)

/-- C1 (code bug): the claim fails on the program. For the input `[1]` the
parse is accepted and the root array value carries span `[1, 2)` — the span
of its last child, the number `1` — although the whitespace-trimmed extent
of the source is `[0, 3)`: in `Parser::step`, both non-empty close arms
match the context with the pattern `ContextItem::Value { span, value: kind }`,
whose `span` binder shadows the just-computed container span
`start..span.end`, so every non-empty object or array is committed with its
last child's span (only empty containers get `[open_offset, close_end)`). -/
theorem c1_span_shadow_bug :
    (parse [91, 49, 93]).1 = .ok ⟨⟨1, 2⟩, .array ⟨0, 1⟩⟩ ∧
    ¬ IsTrimSpan [91, 49, 93] ⟨1, 2⟩ ∧
    IsTrimSpan [91, 49, 93] ⟨0, 3⟩ := by
  refine ⟨?_, ?_, ?_⟩
  · simp [parse, parseWith, tokenize, lexFrom, tokenAt, keywordAt, sliceList, numStartB,
      numContB, isDigit, isWs, numExtra, runTokens, stepTok, Arena.new]
  · intro h
    have hws := h.2.2.1 0 (by decide)
    simp [isWs] at hws
  · refine ⟨by decide, by decide, ?_, by decide, by decide, ?_⟩
    · intro j hj
      exact absurd hj (Nat.not_lt_zero j)
    · intro j hj1 hj2
      have h3 : 3 ≤ j := hj1
      have h4 : j < 3 := hj2
      exact absurd h4 (by omega)

/-! ## Claim C3 -/

theorem utf8Encode_length_pos (c : Nat) : 0 < (utf8Encode c).length := by
  rw [utf8Encode]
  split
  · simp
  · split <;> simp

/-- A successful `decodeLoop` only appends to the scratch buffer, and if the
scratch did not grow at all then no escape was consumed and the returned
source position is unchanged. -/
theorem decodeLoop_ok_extends (src : List Nat) (fin : Nat) :
    ∀ (N p : Nat) (scratch scr : List Nat) (s1 : Nat), fin - p ≤ N →
      decodeLoop src scratch p fin = (.ok s1, scr) →
      (∃ d, scr = scratch ++ d) ∧ (scr.length ≤ scratch.length → s1 = p ∧ scr = scratch) := by
  intro N
  induction N with
  | zero =>
    intro p scratch scr s1 hN hD
    have hm : memchrSlash (sliceList src p fin) = none := by
      apply memchrSlash_none_of
      intro x hx
      rw [sliceList_mem_iff] at hx
      obtain ⟨q, hq1, hq2, _, _⟩ := hx
      omega
    unfold decodeLoop at hD
    split at hD
    · simp only [Prod.mk.injEq, Except.ok.injEq] at hD
      obtain ⟨rfl, rfl⟩ := hD
      exact ⟨⟨[], by simp⟩, fun _ => ⟨rfl, rfl⟩⟩
    · next e hm2 =>
      rw [hm] at hm2
      cases hm2
  | succ N2 ih =>
    intro p scratch scr s1 hN hD
    unfold decodeLoop at hD
    split at hD
    · simp only [Prod.mk.injEq, Except.ok.injEq] at hD
      obtain ⟨rfl, rfl⟩ := hD
      exact ⟨⟨[], by simp⟩, fun _ => ⟨rfl, rfl⟩⟩
    · next e hm =>
      by_cases hc0 : (src.getD (p + e + 1) 0 == 34) = true
      · rw [if_pos hc0] at hD
        obtain ⟨⟨d, hd⟩, -⟩ := ih (p + e + 2)
          (scratch ++ sliceList src p (p + e) ++ [34]) scr s1 (by omega) hD
        subst hd
        refine ⟨⟨sliceList src p (p + e) ++ [34] ++ d, by simp⟩, ?_⟩
        intro hle
        simp at hle
      · rw [if_neg hc0] at hD
        by_cases hc1 : (src.getD (p + e + 1) 0 == 92) = true
        · rw [if_pos hc1] at hD
          obtain ⟨⟨d, hd⟩, -⟩ := ih (p + e + 2)
            (scratch ++ sliceList src p (p + e) ++ [92]) scr s1 (by omega) hD
          subst hd
          refine ⟨⟨sliceList src p (p + e) ++ [92] ++ d, by simp⟩, ?_⟩
          intro hle
          simp at hle
        · rw [if_neg hc1] at hD
          by_cases hc2 : (src.getD (p + e + 1) 0 == 47) = true
          · rw [if_pos hc2] at hD
            obtain ⟨⟨d, hd⟩, -⟩ := ih (p + e + 2)
              (scratch ++ sliceList src p (p + e) ++ [47]) scr s1 (by omega) hD
            subst hd
            refine ⟨⟨sliceList src p (p + e) ++ [47] ++ d, by simp⟩, ?_⟩
            intro hle
            simp at hle
          · rw [if_neg hc2] at hD
            by_cases hc3 : (src.getD (p + e + 1) 0 == 98) = true
            · rw [if_pos hc3] at hD
              obtain ⟨⟨d, hd⟩, -⟩ := ih (p + e + 2)
                (scratch ++ sliceList src p (p + e) ++ [8]) scr s1 (by omega) hD
              subst hd
              refine ⟨⟨sliceList src p (p + e) ++ [8] ++ d, by simp⟩, ?_⟩
              intro hle
              simp at hle
            · rw [if_neg hc3] at hD
              by_cases hc4 : (src.getD (p + e + 1) 0 == 102) = true
              · rw [if_pos hc4] at hD
                obtain ⟨⟨d, hd⟩, -⟩ := ih (p + e + 2)
                  (scratch ++ sliceList src p (p + e) ++ [12]) scr s1 (by omega) hD
                subst hd
                refine ⟨⟨sliceList src p (p + e) ++ [12] ++ d, by simp⟩, ?_⟩
                intro hle
                simp at hle
              · rw [if_neg hc4] at hD
                by_cases hc5 : (src.getD (p + e + 1) 0 == 110) = true
                · rw [if_pos hc5] at hD
                  obtain ⟨⟨d, hd⟩, -⟩ := ih (p + e + 2)
                    (scratch ++ sliceList src p (p + e) ++ [10]) scr s1 (by omega) hD
                  subst hd
                  refine ⟨⟨sliceList src p (p + e) ++ [10] ++ d, by simp⟩, ?_⟩
                  intro hle
                  simp at hle
                · rw [if_neg hc5] at hD
                  by_cases hc6 : (src.getD (p + e + 1) 0 == 114) = true
                  · rw [if_pos hc6] at hD
                    obtain ⟨⟨d, hd⟩, -⟩ := ih (p + e + 2)
                      (scratch ++ sliceList src p (p + e) ++ [13]) scr s1 (by omega) hD
                    subst hd
                    refine ⟨⟨sliceList src p (p + e) ++ [13] ++ d, by simp⟩, ?_⟩
                    intro hle
                    simp at hle
                  · rw [if_neg hc6] at hD
                    by_cases hc7 : (src.getD (p + e + 1) 0 == 116) = true
                    · rw [if_pos hc7] at hD
                      obtain ⟨⟨d, hd⟩, -⟩ := ih (p + e + 2)
                        (scratch ++ sliceList src p (p + e) ++ [9]) scr s1 (by omega) hD
                      subst hd
                      refine ⟨⟨sliceList src p (p + e) ++ [9] ++ d, by simp⟩, ?_⟩
                      intro hle
                      simp at hle
                    · rw [if_neg hc7] at hD
                      by_cases hc8 : (src.getD (p + e + 1) 0 == 117) = true
                      · rw [if_pos hc8] at hD
                        by_cases hb4 : p + e + 2 + 4 ≤ src.length
                        · rw [if_pos hb4] at hD
                          rcases hx1 : hexVal (src.getD (p + e + 2) 0) with _ | a
                          · simp only [hx1] at hD
                            simp at hD
                          · rcases hx2 : hexVal (src.getD (p + e + 3) 0) with _ | b
                            · simp only [hx1, hx2] at hD
                              simp at hD
                            · rcases hx3 : hexVal (src.getD (p + e + 4) 0) with _ | c
                              · simp only [hx1, hx2, hx3] at hD
                                simp at hD
                              · rcases hx4 : hexVal (src.getD (p + e + 5) 0) with _ | d0
                                · simp only [hx1, hx2, hx3, hx4] at hD
                                  simp at hD
                                · simp only [hx1, hx2, hx3, hx4] at hD
                                  by_cases hsur : 55296 ≤ 4096 * a + 256 * b + 16 * c + d0 ∧
                                      4096 * a + 256 * b + 16 * c + d0 ≤ 57343
                                  · rw [if_pos hsur] at hD
                                    simp at hD
                                  · rw [if_neg hsur] at hD
                                    obtain ⟨⟨d, hd⟩, -⟩ := ih (p + e + 6)
                                      (scratch ++ sliceList src p (p + e) ++
                                        utf8Encode (4096 * a + 256 * b + 16 * c + d0)) scr s1 (by omega) hD
                                    subst hd
                                    refine ⟨⟨sliceList src p (p + e) ++
                                      utf8Encode (4096 * a + 256 * b + 16 * c + d0) ++ d, by simp⟩, ?_⟩
                                    intro hle
                                    have hu := utf8Encode_length_pos (4096 * a + 256 * b + 16 * c + d0)
                                    rw [List.length_append, List.length_append, List.length_append] at hle
                                    omega
                        · rw [if_neg hb4] at hD
                          simp at hD
                      · rw [if_neg hc8] at hD
                        simp at hD

/-- A `StringKey` whose reversed (scratch) reading, if any, lies entirely
within the current scratch buffer. -/
def keyValid (scrLen : Nat) (k : StringKey) : Prop :=
  k.span.stop < k.span.start → k.span.start ≤ scrLen

theorem sliceList_append_left (l d : List Nat) (a b : Nat) (hb : b ≤ l.length) :
    sliceList (l ++ d) a b = sliceList l a b := by
  rw [sliceList, sliceList, List.take_append_of_le_length hb]

theorem resolveIn_extend (src scratch d : List Nat) (k : StringKey)
    (hv : keyValid scratch.length k) :
    resolveIn src (scratch ++ d) k = resolveIn src scratch k := by
  rw [resolveIn, resolveIn]
  by_cases hrev : k.span.stop < k.span.start
  · rw [if_pos hrev, if_pos hrev, sliceList_append_left _ _ _ _ (hv hrev)]
  · rw [if_neg hrev, if_neg hrev]

/-- Interner invariant: every table key reads within bounds, distinct table
entries resolve to distinct strings, and every handle stored in `keys` is a
table entry. -/
def TableInv (ar : Arena) : Prop :=
  (∀ k, k ∈ ar.table → keyValid ar.scratch.length k) ∧
  (∀ k1, k1 ∈ ar.table → ∀ k2, k2 ∈ ar.table →
    resolveIn ar.src ar.scratch k1 = resolveIn ar.src ar.scratch k2 → k1 = k2) ∧
  (∀ k, k ∈ ar.keys → k ∈ ar.table)

/-- `internString` when the decode pass consumed at least one escape: the
decoded string lives in the (grown) scratch, the lookup key is reversed. -/
theorem internString_eq_grow (h : List Nat → Nat) (ar : Arena) (sp : Span)
    (start1 : Nat) (d : List Nat) (scratch2 str : List Nat)
    (hs2 : scratch2 = (ar.scratch ++ d) ++ sliceList ar.src start1 (sp.stop - 1))
    (hstr : str = sliceList scratch2 ar.scratch.length scratch2.length)
    (hd : d ≠ [])
    (hD : decodeLoop ar.src ar.scratch (sp.start + 1) (sp.stop - 1) =
      (.ok start1, ar.scratch ++ d)) :
    internString h ar sp =
      match ar.table.find? (fun k0 => resolveIn ar.src scratch2 k0 == str) with
      | some k0 => (.ok k0, ar)
      | none => (.ok ⟨⟨scratch2.length, ar.scratch.length⟩⟩,
          { ar with
            scratch := scratch2
            table := ar.table ++ [⟨⟨scratch2.length, ar.scratch.length⟩⟩] }) := by
  subst hs2
  subst hstr
  simp only [internString, hD]
  rw [if_pos (by simp [List.length_pos.mpr hd])]
  rw [find_pred_hash_redundant]
  have htake : ((ar.scratch ++ d) ++ sliceList ar.src start1 (sp.stop - 1)).take
      ar.scratch.length = ar.scratch := by
    rw [List.append_assoc, List.take_left]
  rw [htake]

/-- `internString` when the decode pass consumed no escape: the decoded
string is the raw source slice between the quotes. -/
theorem internString_eq_nogrow (h : List Nat → Nat) (ar : Arena) (sp : Span)
    (start1 : Nat) (str : List Nat)
    (hstr : str = sliceList ar.src start1 (sp.stop - 1))
    (hD : decodeLoop ar.src ar.scratch (sp.start + 1) (sp.stop - 1) =
      (.ok start1, ar.scratch)) :
    internString h ar sp =
      match ar.table.find? (fun k0 => resolveIn ar.src ar.scratch k0 == str) with
      | some k0 => (.ok k0, ar)
      | none => (.ok ⟨⟨start1, sp.stop - 1⟩⟩,
          { ar with table := ar.table ++ [⟨⟨start1, sp.stop - 1⟩⟩] }) := by
  subst hstr
  simp only [internString, hD]
  rw [if_neg (by omega)]
  rw [find_pred_hash_redundant]
  rw [List.take_length]

/-- Interning a (well-formed) string token preserves the interner invariant;
the returned handle is a table entry; source and keys are untouched and the
old table entries survive. -/
theorem internString_tableInv (h : List Nat → Nat) (ar : Arena) (sp : Span) (k : StringKey)
    (ar1 : Arena) (hT : TableInv ar) (hsp : sp.start + 2 ≤ sp.stop)
    (hI : internString h ar sp = (.ok k, ar1)) :
    TableInv ar1 ∧ k ∈ ar1.table ∧ ar1.src = ar.src ∧ ar1.keys = ar.keys ∧
      (∀ k0, k0 ∈ ar.table → k0 ∈ ar1.table) := by
  obtain ⟨hValid, hInj, hKeys⟩ := hT
  rcases hD : decodeLoop ar.src ar.scratch (sp.start + 1) (sp.stop - 1) with ⟨r, scr⟩
  cases r with
  | error u =>
    rw [internString_err h ar sp scr hD] at hI
    simp at hI
  | ok start1 =>
    obtain ⟨⟨d, rfl⟩, hng⟩ := decodeLoop_ok_extends ar.src (sp.stop - 1)
      (sp.stop - 1 - (sp.start + 1)) (sp.start + 1) ar.scratch _ start1 (by omega) hD
    cases d with
    | nil =>
      rw [List.append_nil] at hD
      obtain ⟨hs1, -⟩ := hng (by simp)
      subst hs1
      rw [internString_eq_nogrow h ar sp (sp.start + 1)
        (sliceList ar.src (sp.start + 1) (sp.stop - 1)) rfl hD] at hI
      rcases hF : ar.table.find? (fun k0 => resolveIn ar.src ar.scratch k0 ==
          sliceList ar.src (sp.start + 1) (sp.stop - 1)) with _ | k0
      · simp only [hF, Prod.mk.injEq, Except.ok.injEq] at hI
        obtain ⟨rfl, rfl⟩ := hI
        have hres : resolveIn ar.src ar.scratch ⟨⟨sp.start + 1, sp.stop - 1⟩⟩ =
            sliceList ar.src (sp.start + 1) (sp.stop - 1) := by
          rw [resolveIn, if_neg (by simp; omega)]
        have hnone := List.find?_eq_none.mp hF
        refine ⟨⟨?_, ?_, ?_⟩, ?_, rfl, rfl, ?_⟩
        · intro k1 hk1
          show keyValid ar.scratch.length k1
          simp only [List.mem_append, List.mem_singleton] at hk1
          rcases hk1 with hk1 | rfl
          · exact hValid k1 hk1
          · intro hrev
            simp at hrev
            omega
        · intro k1 hk1 k2 hk2 heq
          simp only [List.mem_append, List.mem_singleton] at hk1 hk2
          rcases hk1 with hk1 | rfl <;> rcases hk2 with hk2 | rfl
          · exact hInj k1 hk1 k2 hk2 heq
          · rw [hres] at heq
            have := hnone k1 hk1
            simp at this
            exact absurd heq this
          · rw [hres] at heq
            have := hnone k2 hk2
            simp at this
            exact absurd heq.symm this
          · rfl
        · intro k1 hk1
          exact List.mem_append_left _ (hKeys k1 hk1)
        · exact List.mem_append_right _ (by simp)
        · intro k0 hk0
          exact List.mem_append_left _ hk0
      · simp only [hF, Prod.mk.injEq, Except.ok.injEq] at hI
        obtain ⟨rfl, rfl⟩ := hI
        exact ⟨⟨hValid, hInj, hKeys⟩, List.mem_of_find?_eq_some hF, rfl, rfl, fun k0 hk0 => hk0⟩
    | cons d0 dtl =>
      have hd : (d0 :: dtl : List Nat) ≠ [] := by simp
      rw [internString_eq_grow h ar sp start1 (d0 :: dtl)
        ((ar.scratch ++ d0 :: dtl) ++ sliceList ar.src start1 (sp.stop - 1))
        (sliceList ((ar.scratch ++ d0 :: dtl) ++ sliceList ar.src start1 (sp.stop - 1))
          ar.scratch.length
          ((ar.scratch ++ d0 :: dtl) ++ sliceList ar.src start1 (sp.stop - 1)).length)
        rfl rfl hd hD] at hI
      set scratch2 := (ar.scratch ++ d0 :: dtl) ++ sliceList ar.src start1 (sp.stop - 1)
        with hs2
      set str := sliceList scratch2 ar.scratch.length scratch2.length with hstr
      have hs2len : ar.scratch.length < scratch2.length := by
        rw [hs2]
        simp
      have hext : scratch2 = ar.scratch ++ (d0 :: dtl ++ sliceList ar.src start1 (sp.stop - 1)) := by
        rw [hs2, List.append_assoc]
      rcases hF : ar.table.find? (fun k0 => resolveIn ar.src scratch2 k0 == str) with _ | k0
      · simp only [hF, Prod.mk.injEq, Except.ok.injEq] at hI
        obtain ⟨rfl, rfl⟩ := hI
        have hres : resolveIn ar.src scratch2 ⟨⟨scratch2.length, ar.scratch.length⟩⟩ = str := by
          rw [resolveIn, if_pos (by simp; omega)]
        have hnone := List.find?_eq_none.mp hF
        have hstable : ∀ k1, k1 ∈ ar.table →
            resolveIn ar.src scratch2 k1 = resolveIn ar.src ar.scratch k1 := by
          intro k1 hk1
          rw [hext]
          exact resolveIn_extend ar.src ar.scratch _ k1 (hValid k1 hk1)
        refine ⟨⟨?_, ?_, ?_⟩, ?_, rfl, rfl, ?_⟩
        · intro k1 hk1
          show keyValid scratch2.length k1
          simp only [List.mem_append, List.mem_singleton] at hk1
          rcases hk1 with hk1 | rfl
          · intro hrev
            have := hValid k1 hk1 hrev
            omega
          · intro hrev
            simp
        · intro k1 hk1 k2 hk2 heq
          simp only [List.mem_append, List.mem_singleton] at hk1 hk2
          rcases hk1 with hk1 | rfl <;> rcases hk2 with hk2 | rfl
          · rw [hstable k1 hk1, hstable k2 hk2] at heq
            exact hInj k1 hk1 k2 hk2 heq
          · rw [hres] at heq
            have := hnone k1 hk1
            simp at this
            exact absurd heq this
          · rw [hres] at heq
            have := hnone k2 hk2
            simp at this
            exact absurd heq.symm this
          · rfl
        · intro k1 hk1
          exact List.mem_append_left _ (hKeys k1 hk1)
        · exact List.mem_append_right _ (by simp)
        · intro k0 hk0
          exact List.mem_append_left _ hk0
      · simp only [hF, Prod.mk.injEq, Except.ok.injEq] at hI
        obtain ⟨rfl, rfl⟩ := hI
        exact ⟨⟨hValid, hInj, hKeys⟩, List.mem_of_find?_eq_some hF, rfl, rfl, fun k0 hk0 => hk0⟩

/-- Parser-run invariant for the interner: the table invariant holds and
every handle on the key stack or held in a `Key` context is a table entry. -/
def CInv (ar : Arena) (st : PState) (ctx : ContextItem) : Prop :=
  TableInv ar ∧ (∀ k, k ∈ st.kstack → k ∈ ar.table) ∧
  (∀ ksp k, ctx = .key ksp k → k ∈ ar.table)

/-- One successful parser step preserves the interner invariant (and the
source text). -/
theorem stepTok_cinv (h : List Nat → Nat) (ar : Arena) (st st1 : PState)
    (ctx ctx1 : ContextItem) (t : Token) (sp : Span) (ar1 : Arena)
    (hstr : t = .leaf .string → sp.start + 2 ≤ sp.stop)
    (hC : CInv ar st ctx)
    (hstep : stepTok h ar st ctx t sp = (.ok (st1, ctx1), ar1)) :
    ar1.src = ar.src ∧ CInv ar1 st1 ctx1 := by
  obtain ⟨stk, vstk, kstk⟩ := st
  obtain ⟨hTI, hKS, hCtx⟩ := hC
  cases t with
  | leaf v =>
    cases ctx with
    | waitingValue =>
      simp only [stepTok, Prod.mk.injEq, Except.ok.injEq] at hstep
      obtain ⟨⟨rfl, rfl⟩, rfl⟩ := hstep
      exact ⟨rfl, hTI, hKS, fun ksp k hk => ContextItem.noConfusion hk⟩
    | waitingKey =>
      cases v with
      | string =>
        rcases hI : internString h ar sp with ⟨r, arI⟩
        cases r with
        | ok kk =>
          obtain ⟨hT1, hmem, hsrc1, hkeys1, hold⟩ :=
            internString_tableInv h ar sp kk arI hTI (hstr rfl) hI
          simp only [stepTok, hI, Prod.mk.injEq, Except.ok.injEq] at hstep
          obtain ⟨⟨rfl, rfl⟩, rfl⟩ := hstep
          refine ⟨hsrc1, hT1, ?_, ?_⟩
          · intro k0 hk0
            exact hold k0 (hKS k0 hk0)
          · intro ksp k hk
            injection hk with h1 h2
            subst h2
            exact hmem
        | error u =>
          simp only [stepTok, hI] at hstep
          simp at hstep
      | bool b =>
        simp only [stepTok] at hstep
        simp at hstep
      | null =>
        simp only [stepTok] at hstep
        simp at hstep
      | number =>
        simp only [stepTok] at hstep
        simp at hstep
    | key ksp kk0 =>
      simp only [stepTok] at hstep
      simp at hstep
    | value vsp vk =>
      simp only [stepTok] at hstep
      simp at hstep
  | openObject =>
    cases ctx with
    | waitingValue =>
      simp only [stepTok, Prod.mk.injEq, Except.ok.injEq] at hstep
      obtain ⟨⟨rfl, rfl⟩, rfl⟩ := hstep
      exact ⟨rfl, hTI, hKS, fun ksp k hk => ContextItem.noConfusion hk⟩
    | waitingKey =>
      simp only [stepTok] at hstep
      simp at hstep
    | key ksp kk0 =>
      simp only [stepTok] at hstep
      simp at hstep
    | value vsp vk =>
      simp only [stepTok] at hstep
      simp at hstep
  | openArray =>
    cases ctx with
    | waitingValue =>
      simp only [stepTok, Prod.mk.injEq, Except.ok.injEq] at hstep
      obtain ⟨⟨rfl, rfl⟩, rfl⟩ := hstep
      exact ⟨rfl, hTI, hKS, fun ksp k hk => ContextItem.noConfusion hk⟩
    | waitingKey =>
      simp only [stepTok] at hstep
      simp at hstep
    | key ksp kk0 =>
      simp only [stepTok] at hstep
      simp at hstep
    | value vsp vk =>
      simp only [stepTok] at hstep
      simp at hstep
  | closeObject =>
    cases stk with
    | nil =>
      simp only [stepTok] at hstep
      simp at hstep
    | cons item rest =>
      obtain ⟨s0, kind⟩ := item
      cases kind with
      | array vi =>
        simp only [stepTok] at hstep
        simp at hstep
      | object vi ki =>
        cases ctx with
        | waitingValue =>
          simp only [stepTok] at hstep
          simp at hstep
        | key ksp kk0 =>
          simp only [stepTok] at hstep
          simp at hstep
        | waitingKey =>
          simp only [stepTok] at hstep
          by_cases hv : (vstk.length == vi) = true
          · rw [if_pos hv] at hstep
            simp only [Prod.mk.injEq, Except.ok.injEq] at hstep
            obtain ⟨⟨rfl, rfl⟩, rfl⟩ := hstep
            exact ⟨rfl, hTI, hKS, fun ksp k hk => ContextItem.noConfusion hk⟩
          · rw [if_neg hv] at hstep
            simp at hstep
        | value vsp vk =>
          simp only [stepTok, Prod.mk.injEq, Except.ok.injEq] at hstep
          obtain ⟨⟨rfl, rfl⟩, rfl⟩ := hstep
          obtain ⟨hValid, hInj, hKeys⟩ := hTI
          refine ⟨rfl, ⟨hValid, hInj, ?_⟩, ?_, ?_⟩
          · intro k hk
            simp only [List.mem_append] at hk
            rcases hk with hk | hk
            · exact hKeys k hk
            · exact hKS k (List.mem_of_mem_drop hk)
          · intro k hk
            exact hKS k (List.mem_of_mem_take hk)
          · intro ksp k hk
            exact ContextItem.noConfusion hk
  | closeArray =>
    cases stk with
    | nil =>
      simp only [stepTok] at hstep
      simp at hstep
    | cons item rest =>
      obtain ⟨s0, kind⟩ := item
      cases kind with
      | object vi ki =>
        simp only [stepTok] at hstep
        simp at hstep
      | array vi =>
        cases ctx with
        | waitingKey =>
          simp only [stepTok] at hstep
          simp at hstep
        | key ksp kk0 =>
          simp only [stepTok] at hstep
          simp at hstep
        | waitingValue =>
          simp only [stepTok] at hstep
          by_cases hv : (vstk.length == vi) = true
          · rw [if_pos hv] at hstep
            simp only [Prod.mk.injEq, Except.ok.injEq] at hstep
            obtain ⟨⟨rfl, rfl⟩, rfl⟩ := hstep
            exact ⟨rfl, hTI, hKS, fun ksp k hk => ContextItem.noConfusion hk⟩
          · rw [if_neg hv] at hstep
            simp at hstep
        | value vsp vk =>
          simp only [stepTok, Prod.mk.injEq, Except.ok.injEq] at hstep
          obtain ⟨⟨rfl, rfl⟩, rfl⟩ := hstep
          obtain ⟨hValid, hInj, hKeys⟩ := hTI
          exact ⟨rfl, ⟨hValid, hInj, hKeys⟩, hKS,
            fun ksp k hk => ContextItem.noConfusion hk⟩
  | colon =>
    cases ctx with
    | key ksp kk0 =>
      cases stk with
      | nil =>
        simp only [stepTok] at hstep
        simp at hstep
      | cons item rest =>
        obtain ⟨s0, kind⟩ := item
        cases kind with
        | array vi =>
          simp only [stepTok] at hstep
          simp at hstep
        | object vi ki =>
          simp only [stepTok, Prod.mk.injEq, Except.ok.injEq] at hstep
          obtain ⟨⟨rfl, rfl⟩, rfl⟩ := hstep
          refine ⟨rfl, hTI, ?_, ?_⟩
          · intro k hk
            simp only [List.mem_append, List.mem_singleton] at hk
            rcases hk with hk | rfl
            · exact hKS k hk
            · exact hCtx ksp k rfl
          · intro ksp2 k hk
            exact ContextItem.noConfusion hk
    | waitingKey =>
      simp only [stepTok] at hstep
      simp at hstep
    | waitingValue =>
      simp only [stepTok] at hstep
      simp at hstep
    | value vsp vk =>
      simp only [stepTok] at hstep
      simp at hstep
  | comma =>
    cases ctx with
    | value vsp vk =>
      cases stk with
      | nil =>
        simp only [stepTok] at hstep
        simp at hstep
      | cons item rest =>
        obtain ⟨s0, kind⟩ := item
        cases kind with
        | object vi ki =>
          simp only [stepTok, Prod.mk.injEq, Except.ok.injEq] at hstep
          obtain ⟨⟨rfl, rfl⟩, rfl⟩ := hstep
          exact ⟨rfl, hTI, hKS, fun ksp k hk => ContextItem.noConfusion hk⟩
        | array vi =>
          simp only [stepTok, Prod.mk.injEq, Except.ok.injEq] at hstep
          obtain ⟨⟨rfl, rfl⟩, rfl⟩ := hstep
          exact ⟨rfl, hTI, hKS, fun ksp k hk => ContextItem.noConfusion hk⟩
    | waitingKey =>
      simp only [stepTok] at hstep
      simp at hstep
    | waitingValue =>
      simp only [stepTok] at hstep
      simp at hstep
    | key ksp kk0 =>
      simp only [stepTok] at hstep
      simp at hstep

/-- An accepting run from a `CInv` state yields an arena satisfying the
table invariant. -/
theorem runTokens_cinv (h : List Nat → Nat) (src : List Nat) :
    ∀ (toks : List TokR) (i : Nat) (ar : Arena) (st : PState) (ctx : ContextItem)
      (v : Value) (ar2 : Arena),
      TokStream src i toks → CInv ar st ctx →
      runTokens h ar st ctx toks = (.ok v, ar2) → TableInv ar2 := by
  intro toks
  induction toks with
  | nil =>
    intro i ar st ctx v ar2 hts hC hrun
    obtain ⟨stk, vstk, kstk⟩ := st
    cases ctx with
    | value sp k =>
      cases stk with
      | nil =>
        simp only [runTokens, Prod.mk.injEq, Except.ok.injEq] at hrun
        obtain ⟨rfl, rfl⟩ := hrun
        exact hC.1
      | cons a l =>
        simp only [runTokens] at hrun
        simp at hrun
    | waitingValue =>
      cases stk with
      | nil =>
        simp only [runTokens] at hrun
        simp at hrun
      | cons a l =>
        simp only [runTokens] at hrun
        simp at hrun
    | waitingKey =>
      cases stk with
      | nil =>
        simp only [runTokens] at hrun
        simp at hrun
      | cons a l =>
        simp only [runTokens] at hrun
        simp at hrun
    | key ksp kk0 =>
      cases stk with
      | nil =>
        simp only [runTokens] at hrun
        simp at hrun
      | cons a l =>
        simp only [runTokens] at hrun
        simp at hrun
  | cons tok rest ih =>
    intro i ar st ctx v ar2 hts hC hrun
    cases tok with
    | error esp =>
      simp only [runTokens] at hrun
      simp at hrun
    | ok p =>
      obtain ⟨t, sp⟩ := p
      obtain ⟨hw, hi, hss, hse, hnw1, hnw2, hstr, hts2⟩ := hts
      rcases hstep : stepTok h ar st ctx t sp with ⟨r, ar1⟩
      cases r with
      | error e =>
        simp only [runTokens, hstep] at hrun
        simp at hrun
      | ok p1 =>
        obtain ⟨st1, ctx1⟩ := p1
        simp only [runTokens, hstep] at hrun
        obtain ⟨hsrc1, hC1⟩ := stepTok_cinv h ar st st1 ctx ctx1 t sp ar1 hstr hC hstep
        exact ih sp.stop ar1 st1 ctx1 v ar2 hts2 hC1 hrun

/-- C3: on any accepted input the final arena interns keys idempotently —
any two handles in `keys` (or any two table entries) resolving to the same
decoded byte string are the same handle, and every key handle is a table
entry, so the table holds exactly one entry per distinct decoded key. -/
theorem c3_intern_idempotent (src : List Nat) (v : Value) (ar2 : Arena)
    (hp : parse src = (.ok v, ar2)) :
    (∀ k1, k1 ∈ ar2.keys → ∀ k2, k2 ∈ ar2.keys →
      ar2.resolve k1 = ar2.resolve k2 → k1 = k2) ∧
    (∀ k1, k1 ∈ ar2.table → ∀ k2, k2 ∈ ar2.table →
      ar2.resolve k1 = ar2.resolve k2 → k1 = k2) ∧
    (∀ k, k ∈ ar2.keys → k ∈ ar2.table) := by
  rw [parse, parseWith] at hp
  have hT : TableInv ar2 := by
    refine runTokens_cinv (fun _ => 0) src (tokenize src) 0 (Arena.new src) ⟨[], [], []⟩
      .waitingValue v ar2 (tokenize_tokStream src) ⟨⟨?_, ?_, ?_⟩, ?_, ?_⟩ hp
    · intro k hk
      simp [Arena.new] at hk
    · intro k1 hk1
      simp [Arena.new] at hk1
    · intro k hk
      simp [Arena.new] at hk
    · intro k hk
      simp at hk
    · intro ksp k hk
      exact ContextItem.noConfusion hk
  obtain ⟨hValid, hInj, hKeys⟩ := hT
  exact ⟨fun k1 hk1 k2 hk2 heq => hInj k1 (hKeys k1 hk1) k2 (hKeys k2 hk2) heq,
    hInj, hKeys⟩

theorem c3_intern_idempotent_witness :
    (⟨⟨2, 3⟩⟩ : StringKey) ∈
      (⟨[123, 34, 97, 34, 58, 49, 44, 34, 97, 34, 58, 50, 125], [], [⟨⟨2, 3⟩⟩],
        [⟨⟨2, 3⟩⟩, ⟨⟨2, 3⟩⟩],
        [⟨⟨5, 6⟩, .leaf .number⟩, ⟨⟨11, 12⟩, .leaf .number⟩]⟩ : Arena).table :=
  (c3_intern_idempotent [123, 34, 97, 34, 58, 49, 44, 34, 97, 34, 58, 50, 125]
      ⟨⟨11, 12⟩, .object ⟨0, 2⟩ ⟨0, 2⟩⟩
      ⟨[123, 34, 97, 34, 58, 49, 44, 34, 97, 34, 58, 50, 125], [], [⟨⟨2, 3⟩⟩],
        [⟨⟨2, 3⟩⟩, ⟨⟨2, 3⟩⟩],
        [⟨⟨5, 6⟩, .leaf .number⟩, ⟨⟨11, 12⟩, .leaf .number⟩]⟩
      (by simp [parse, parseWith, tokenize, lexFrom, tokenAt, keywordAt, sliceList,
        numStartB, numContB, isDigit, isWs, numExtra, strScanLen, runTokens, stepTok,
        Arena.new, internString, decodeLoop, memchrSlash, resolveIn])).2.2
    ⟨⟨2, 3⟩⟩ (by simp)

/-! ## Claim C2 -/

/-- The children (values) range of a container kind, if any. -/
def vrangeOf : ValueKind → Option Span
  | .array r => some r
  | .object _ r => some r
  | .leaf _ => none

/-- The keys range of an object kind, if any. -/
def krangeOf : ValueKind → Option Span
  | .object kr _ => some kr
  | _ => none

/-- Two half-open index ranges are disjoint. -/
def SpDisj (r1 r2 : Span) : Prop := r1.stop ≤ r2.start ∨ r2.stop ≤ r1.start

/-- Values-range disjointness of two tree nodes (vacuous for leaves). -/
def VDisj (x y : Value) : Prop :=
  ∀ r1 r2, vrangeOf x.kind = some r1 → vrangeOf y.kind = some r2 → SpDisj r1 r2

/-- Keys-range disjointness of two tree nodes (vacuous for non-objects). -/
def KDisj (x y : Value) : Prop :=
  ∀ r1 r2, krangeOf x.kind = some r1 → krangeOf y.kind = some r2 → SpDisj r1 r2

/-- The completed-but-uncommitted values: the value stack plus the value
held by the context, if any. -/
def pendOf (vstk : List Value) (ctx : ContextItem) : List Value :=
  match ctx with
  | .value sp k => vstk ++ [⟨sp, k⟩]
  | _ => vstk

theorem VDisj_symm : ∀ {x y : Value}, VDisj x y → VDisj y x := by
  intro x y hd r1 r2 h1 h2
  rcases hd r2 r1 h2 h1 with h | h
  · exact Or.inr h
  · exact Or.inl h

theorem KDisj_symm : ∀ {x y : Value}, KDisj x y → KDisj y x := by
  intro x y hd r1 r2 h1 h2
  rcases hd r2 r1 h2 h1 with h | h
  · exact Or.inr h
  · exact Or.inl h

theorem mem_of_getD (l : List Value) (n : Nat) (d : Value) (h : n < l.length) :
    l.getD n d ∈ l := by
  rw [List.getD_eq_getElem l d h]
  exact List.getElem_mem h

/-- The layout invariant carried through the parser run: every committed
slot's children range ends strictly below its own index, every pending
node's range ends at or below the committed count, object key ranges are
bounded by the committed key count, and all ranges are pairwise disjoint. -/
def PInv (ar : Arena) (st : PState) (ctx : ContextItem) : Prop :=
  (∀ m r, m < ar.values.length →
    vrangeOf ((ar.values.getD m ⟨⟨0, 0⟩, .leaf .null⟩).kind) = some r →
    r.start ≤ r.stop ∧ r.stop ≤ m) ∧
  (∀ p, p ∈ pendOf st.vstack ctx → ∀ r, vrangeOf p.kind = some r →
    r.start ≤ r.stop ∧ r.stop ≤ ar.values.length) ∧
  (∀ m kr, m < ar.values.length →
    krangeOf ((ar.values.getD m ⟨⟨0, 0⟩, .leaf .null⟩).kind) = some kr →
    kr.start ≤ kr.stop ∧ kr.stop ≤ ar.keys.length) ∧
  (∀ p, p ∈ pendOf st.vstack ctx → ∀ kr, krangeOf p.kind = some kr →
    kr.start ≤ kr.stop ∧ kr.stop ≤ ar.keys.length) ∧
  List.Pairwise VDisj (ar.values ++ pendOf st.vstack ctx) ∧
  List.Pairwise KDisj (ar.values ++ pendOf st.vstack ctx)

theorem slotsVBound (values : List Value)
    (h1 : ∀ m r, m < values.length →
      vrangeOf ((values.getD m ⟨⟨0, 0⟩, .leaf .null⟩).kind) = some r →
      r.start ≤ r.stop ∧ r.stop ≤ m) :
    ∀ x, x ∈ values → ∀ r, vrangeOf x.kind = some r →
      r.start ≤ r.stop ∧ r.stop ≤ values.length := by
  intro x hx r hr
  obtain ⟨m, hm, rfl⟩ := List.mem_iff_getElem.mp hx
  rw [← List.getD_eq_getElem values ⟨⟨0, 0⟩, .leaf .null⟩ hm] at hr
  obtain ⟨ha, hb⟩ := h1 m r hm hr
  exact ⟨ha, by omega⟩

theorem slotsKBound (values : List Value) (K : Nat)
    (h3 : ∀ m kr, m < values.length →
      krangeOf ((values.getD m ⟨⟨0, 0⟩, .leaf .null⟩).kind) = some kr →
      kr.start ≤ kr.stop ∧ kr.stop ≤ K) :
    ∀ x, x ∈ values → ∀ kr, krangeOf x.kind = some kr →
      kr.start ≤ kr.stop ∧ kr.stop ≤ K := by
  intro x hx kr hkr
  obtain ⟨m, hm, rfl⟩ := List.mem_iff_getElem.mp hx
  rw [← List.getD_eq_getElem values ⟨⟨0, 0⟩, .leaf .null⟩ hm] at hkr
  exact h3 m kr hm hkr

theorem pairwise_append_one {R : Value → Value → Prop}
    (l : List Value) (c : Value) (hp : List.Pairwise R l) (hc : ∀ x, x ∈ l → R x c) :
    List.Pairwise R (l ++ [c]) := by
  rw [List.pairwise_append]
  refine ⟨hp, List.pairwise_singleton R c, ?_⟩
  intro x hx y hy
  rw [List.mem_singleton] at hy
  subst hy
  exact hc x hx

theorem pairwise_close_perm {R : Value → Value → Prop}
    (hsym : ∀ {x y : Value}, R x y → R y x)
    (values P : List Value) (vi : Nat) (c : Value)
    (hp : List.Pairwise R (values ++ P))
    (hc : ∀ x, x ∈ values ++ P → R x c) :
    List.Pairwise R ((values ++ P.drop vi) ++ (P.take vi ++ [c])) := by
  have h1 : List.Pairwise R ((values ++ P) ++ [c]) := pairwise_append_one _ c hp hc
  have hperm : ((values ++ P) ++ [c]).Perm ((values ++ P.drop vi) ++ (P.take vi ++ [c])) := by
    have e1 : (values ++ P) ++ [c] = values ++ ((P.take vi ++ P.drop vi) ++ [c]) := by
      rw [List.take_append_drop, List.append_assoc]
    have e2 : (values ++ P.drop vi) ++ (P.take vi ++ [c]) =
        values ++ (P.drop vi ++ (P.take vi ++ [c])) := by
      rw [List.append_assoc]
    rw [e1, e2]
    apply List.Perm.append_left
    have h3 : ((P.take vi ++ P.drop vi) ++ [c]).Perm ((P.drop vi ++ P.take vi) ++ [c]) :=
      List.Perm.append_right [c] List.perm_append_comm
    have h4 : (P.drop vi ++ P.take vi) ++ [c] = P.drop vi ++ (P.take vi ++ [c]) :=
      List.append_assoc _ _ _
    rw [← h4]
    exact h3
  exact (List.Perm.pairwise_iff hsym hperm).mp h1

theorem internString_valueskeys (h : List Nat → Nat) (ar : Arena) (sp : Span) :
    (internString h ar sp).2.values = ar.values ∧ (internString h ar sp).2.keys = ar.keys := by
  rcases hD : decodeLoop ar.src ar.scratch (sp.start + 1) (sp.stop - 1) with ⟨r, scr⟩
  cases r with
  | error u =>
    simp only [internString, hD]
    simp
  | ok start1 =>
    simp only [internString, hD]
    by_cases hgrow : ar.scratch.length < scr.length
    · rw [if_pos hgrow]
      split <;> simp
    · rw [if_neg hgrow]
      split <;> simp

/-- One successful parser step preserves the layout invariant. -/
theorem stepTok_pinv (h : List Nat → Nat) (ar : Arena) (st st1 : PState)
    (ctx ctx1 : ContextItem) (t : Token) (sp : Span) (ar1 : Arena)
    (hinv : PInv ar st ctx)
    (hstep : stepTok h ar st ctx t sp = (.ok (st1, ctx1), ar1)) :
    PInv ar1 st1 ctx1 := by
  obtain ⟨stk, vstk, kstk⟩ := st
  cases t with
  | leaf v =>
    cases ctx with
    | waitingValue =>
      simp only [stepTok, Prod.mk.injEq, Except.ok.injEq] at hstep
      obtain ⟨⟨rfl, rfl⟩, rfl⟩ := hstep
      obtain ⟨h1, h2, h3, h4, h5, h6⟩ := hinv
      refine ⟨h1, ?_, h3, ?_, ?_, ?_⟩
      · intro p hp r hr
        replace hp : p ∈ vstk ++ [(⟨sp, .leaf v⟩ : Value)] := hp
        rcases List.mem_append.mp hp with hp | hp
        · exact h2 p hp r hr
        · rw [List.mem_singleton] at hp
          subst hp
          exact absurd hr (by simp [vrangeOf])
      · intro p hp kr hkr
        replace hp : p ∈ vstk ++ [(⟨sp, .leaf v⟩ : Value)] := hp
        rcases List.mem_append.mp hp with hp | hp
        · exact h4 p hp kr hkr
        · rw [List.mem_singleton] at hp
          subst hp
          exact absurd hkr (by simp [krangeOf])
      · show List.Pairwise VDisj (ar.values ++ (vstk ++ [(⟨sp, .leaf v⟩ : Value)]))
        rw [← List.append_assoc]
        refine pairwise_append_one _ _ h5 ?_
        intro x hx r1 r2 hr1 hr2
        exact absurd hr2 (by simp [vrangeOf])
      · show List.Pairwise KDisj (ar.values ++ (vstk ++ [(⟨sp, .leaf v⟩ : Value)]))
        rw [← List.append_assoc]
        refine pairwise_append_one _ _ h6 ?_
        intro x hx r1 r2 hr1 hr2
        exact absurd hr2 (by simp [krangeOf])
    | waitingKey =>
      cases v with
      | string =>
        rcases hI : internString h ar sp with ⟨r, arI⟩
        cases r with
        | ok kk =>
          have hvk := internString_valueskeys h ar sp
          rw [hI] at hvk
          simp only [stepTok, hI, Prod.mk.injEq, Except.ok.injEq] at hstep
          obtain ⟨⟨rfl, rfl⟩, rfl⟩ := hstep
          obtain ⟨h1, h2, h3, h4, h5, h6⟩ := hinv
          refine ⟨?_, ?_, ?_, ?_, ?_, ?_⟩
          · intro m r hm hr
            rw [hvk.1] at hm hr
            exact h1 m r hm hr
          · intro p hp r hr
            rw [hvk.1]
            exact h2 p hp r hr
          · intro m kr hm hkr
            rw [hvk.1] at hm hkr
            rw [hvk.2]
            exact h3 m kr hm hkr
          · intro p hp kr hkr
            rw [hvk.2]
            exact h4 p hp kr hkr
          · show List.Pairwise VDisj (arI.values ++ vstk)
            rw [hvk.1]
            exact h5
          · show List.Pairwise KDisj (arI.values ++ vstk)
            rw [hvk.1]
            exact h6
        | error u =>
          simp only [stepTok, hI] at hstep
          simp at hstep
      | bool b =>
        simp only [stepTok] at hstep
        simp at hstep
      | null =>
        simp only [stepTok] at hstep
        simp at hstep
      | number =>
        simp only [stepTok] at hstep
        simp at hstep
    | key ksp kk0 =>
      simp only [stepTok] at hstep
      simp at hstep
    | value vsp vk =>
      simp only [stepTok] at hstep
      simp at hstep
  | openObject =>
    cases ctx with
    | waitingValue =>
      simp only [stepTok, Prod.mk.injEq, Except.ok.injEq] at hstep
      obtain ⟨⟨rfl, rfl⟩, rfl⟩ := hstep
      exact hinv
    | waitingKey =>
      simp only [stepTok] at hstep
      simp at hstep
    | key ksp kk0 =>
      simp only [stepTok] at hstep
      simp at hstep
    | value vsp vk =>
      simp only [stepTok] at hstep
      simp at hstep
  | openArray =>
    cases ctx with
    | waitingValue =>
      simp only [stepTok, Prod.mk.injEq, Except.ok.injEq] at hstep
      obtain ⟨⟨rfl, rfl⟩, rfl⟩ := hstep
      exact hinv
    | waitingKey =>
      simp only [stepTok] at hstep
      simp at hstep
    | key ksp kk0 =>
      simp only [stepTok] at hstep
      simp at hstep
    | value vsp vk =>
      simp only [stepTok] at hstep
      simp at hstep
  | closeObject =>
    cases stk with
    | nil =>
      simp only [stepTok] at hstep
      simp at hstep
    | cons item rest =>
      obtain ⟨s0, kind⟩ := item
      cases kind with
      | array vi =>
        simp only [stepTok] at hstep
        simp at hstep
      | object vi ki =>
        cases ctx with
        | waitingValue =>
          simp only [stepTok] at hstep
          simp at hstep
        | key ksp kk0 =>
          simp only [stepTok] at hstep
          simp at hstep
        | waitingKey =>
          simp only [stepTok] at hstep
          by_cases hv : (vstk.length == vi) = true
          · rw [if_pos hv] at hstep
            simp only [Prod.mk.injEq, Except.ok.injEq] at hstep
            obtain ⟨⟨rfl, rfl⟩, rfl⟩ := hstep
            obtain ⟨h1, h2, h3, h4, h5, h6⟩ := hinv
            refine ⟨h1, ?_, h3, ?_, ?_, ?_⟩
            · intro p hp r hr
              replace hp : p ∈ vstk ++ [(⟨⟨s0, sp.stop⟩, .object ⟨0, 0⟩ ⟨0, 0⟩⟩ : Value)] := hp
              rcases List.mem_append.mp hp with hp | hp
              · exact h2 p hp r hr
              · rw [List.mem_singleton] at hp
                subst hp
                replace hr : vrangeOf (.object ⟨0, 0⟩ ⟨0, 0⟩) = some r := hr
                simp only [vrangeOf, Option.some.injEq] at hr
                subst hr
                exact ⟨Nat.le_refl _, Nat.zero_le _⟩
            · intro p hp kr hkr
              replace hp : p ∈ vstk ++ [(⟨⟨s0, sp.stop⟩, .object ⟨0, 0⟩ ⟨0, 0⟩⟩ : Value)] := hp
              rcases List.mem_append.mp hp with hp | hp
              · exact h4 p hp kr hkr
              · rw [List.mem_singleton] at hp
                subst hp
                replace hkr : krangeOf (.object ⟨0, 0⟩ ⟨0, 0⟩) = some kr := hkr
                simp only [krangeOf, Option.some.injEq] at hkr
                subst hkr
                exact ⟨Nat.le_refl _, Nat.zero_le _⟩
            · show List.Pairwise VDisj (ar.values ++ (vstk ++ [(⟨⟨s0, sp.stop⟩, .object ⟨0, 0⟩ ⟨0, 0⟩⟩ : Value)]))
              rw [← List.append_assoc]
              refine pairwise_append_one _ _ h5 ?_
              intro x hx r1 r2 hr1 hr2
              simp only [vrangeOf, Option.some.injEq] at hr2
              subst hr2
              exact Or.inr (Nat.zero_le _)
            · show List.Pairwise KDisj (ar.values ++ (vstk ++ [(⟨⟨s0, sp.stop⟩, .object ⟨0, 0⟩ ⟨0, 0⟩⟩ : Value)]))
              rw [← List.append_assoc]
              refine pairwise_append_one _ _ h6 ?_
              intro x hx r1 r2 hr1 hr2
              simp only [krangeOf, Option.some.injEq] at hr2
              subst hr2
              exact Or.inr (Nat.zero_le _)
          · rw [if_neg hv] at hstep
            simp at hstep
        | value vsp vk =>
          simp only [stepTok, Prod.mk.injEq, Except.ok.injEq] at hstep
          obtain ⟨⟨rfl, rfl⟩, rfl⟩ := hstep
          obtain ⟨h1, h2, h3, h4, h5, h6⟩ := hinv
          have hallv : ∀ x, x ∈ ar.values ++ (vstk ++ [(⟨vsp, vk⟩ : Value)]) →
              ∀ r, vrangeOf x.kind = some r →
              r.start ≤ r.stop ∧ r.stop ≤ ar.values.length := by
            intro x hx r hr
            rcases List.mem_append.mp hx with hx | hx
            · exact slotsVBound ar.values h1 x hx r hr
            · exact h2 x hx r hr
          have hallk : ∀ x, x ∈ ar.values ++ (vstk ++ [(⟨vsp, vk⟩ : Value)]) →
              ∀ kr, krangeOf x.kind = some kr →
              kr.start ≤ kr.stop ∧ kr.stop ≤ ar.keys.length := by
            intro x hx kr hkr
            rcases List.mem_append.mp hx with hx | hx
            · exact slotsKBound ar.values ar.keys.length h3 x hx kr hkr
            · exact h4 x hx kr hkr
          refine ⟨?_, ?_, ?_, ?_, ?_, ?_⟩
          · intro m r hm hr
            replace hm : m < (ar.values ++ ((vstk ++ [(⟨vsp, vk⟩ : Value)]).drop vi)).length := hm
            replace hr : vrangeOf (((ar.values ++ ((vstk ++ [(⟨vsp, vk⟩ : Value)]).drop vi)).getD m
              ⟨⟨0, 0⟩, .leaf .null⟩).kind) = some r := hr
            rw [List.length_append] at hm
            by_cases hmL : m < ar.values.length
            · rw [List.getD_append _ _ _ _ hmL] at hr
              exact h1 m r hmL hr
            · rw [List.getD_append_right _ _ _ _ (by omega)] at hr
              have hmem := mem_of_getD ((vstk ++ [(⟨vsp, vk⟩ : Value)]).drop vi) (m - ar.values.length)
                ⟨⟨0, 0⟩, .leaf .null⟩ (by omega)
              have hb := h2 _ (List.mem_of_mem_drop hmem) r hr
              exact ⟨hb.1, by omega⟩
          · intro p hp r hr
            replace hp : p ∈ ((vstk ++ [(⟨vsp, vk⟩ : Value)]).take vi) ++ [(⟨vsp, (.object ⟨ar.keys.length, ar.keys.length + (kstk.drop ki).length⟩ ⟨ar.values.length, ar.values.length + ((vstk ++ [(⟨vsp, vk⟩ : Value)]).drop vi).length⟩)⟩ : Value)] := hp
            rcases List.mem_append.mp hp with hp | hp
            · have hb := h2 p (List.mem_of_mem_take hp) r hr
              refine ⟨hb.1, ?_⟩
              show r.stop ≤ (ar.values ++ ((vstk ++ [(⟨vsp, vk⟩ : Value)]).drop vi)).length
              rw [List.length_append]
              omega
            · rw [List.mem_singleton] at hp
              subst hp
              replace hr : vrangeOf (.object ⟨ar.keys.length, ar.keys.length + (kstk.drop ki).length⟩ ⟨ar.values.length, ar.values.length + ((vstk ++ [(⟨vsp, vk⟩ : Value)]).drop vi).length⟩) = some r := hr
              simp only [vrangeOf, Option.some.injEq] at hr
              subst hr
              refine ⟨Nat.le_add_right _ _, ?_⟩
              show ar.values.length + ((vstk ++ [(⟨vsp, vk⟩ : Value)]).drop vi).length ≤ (ar.values ++ ((vstk ++ [(⟨vsp, vk⟩ : Value)]).drop vi)).length
              rw [List.length_append]
          · intro m kr hm hkr
            replace hm : m < (ar.values ++ ((vstk ++ [(⟨vsp, vk⟩ : Value)]).drop vi)).length := hm
            replace hkr : krangeOf (((ar.values ++ ((vstk ++ [(⟨vsp, vk⟩ : Value)]).drop vi)).getD m
              ⟨⟨0, 0⟩, .leaf .null⟩).kind) = some kr := hkr
            rw [List.length_append] at hm
            by_cases hmL : m < ar.values.length
            · rw [List.getD_append _ _ _ _ hmL] at hkr
              have hb := h3 m kr hmL hkr
              refine ⟨hb.1, ?_⟩
              show kr.stop ≤ (ar.keys ++ kstk.drop ki).length
              rw [List.length_append]
              omega
            · rw [List.getD_append_right _ _ _ _ (by omega)] at hkr
              have hmem := mem_of_getD ((vstk ++ [(⟨vsp, vk⟩ : Value)]).drop vi) (m - ar.values.length)
                ⟨⟨0, 0⟩, .leaf .null⟩ (by omega)
              have hb := h4 _ (List.mem_of_mem_drop hmem) kr hkr
              refine ⟨hb.1, ?_⟩
              show kr.stop ≤ (ar.keys ++ kstk.drop ki).length
              rw [List.length_append]
              omega
          · intro p hp kr hkr
            replace hp : p ∈ ((vstk ++ [(⟨vsp, vk⟩ : Value)]).take vi) ++ [(⟨vsp, (.object ⟨ar.keys.length, ar.keys.length + (kstk.drop ki).length⟩ ⟨ar.values.length, ar.values.length + ((vstk ++ [(⟨vsp, vk⟩ : Value)]).drop vi).length⟩)⟩ : Value)] := hp
            rcases List.mem_append.mp hp with hp | hp
            · have hb := h4 p (List.mem_of_mem_take hp) kr hkr
              refine ⟨hb.1, ?_⟩
              show kr.stop ≤ (ar.keys ++ kstk.drop ki).length
              rw [List.length_append]
              omega
            · rw [List.mem_singleton] at hp
              subst hp
              replace hkr : krangeOf (.object ⟨ar.keys.length, ar.keys.length + (kstk.drop ki).length⟩ ⟨ar.values.length, ar.values.length + ((vstk ++ [(⟨vsp, vk⟩ : Value)]).drop vi).length⟩) = some kr := hkr
              simp only [krangeOf, Option.some.injEq] at hkr
              subst hkr
              refine ⟨Nat.le_add_right _ _, ?_⟩
              show ar.keys.length + (kstk.drop ki).length ≤ (ar.keys ++ kstk.drop ki).length
              rw [List.length_append]
          · have hcx : ∀ x, x ∈ ar.values ++ (vstk ++ [(⟨vsp, vk⟩ : Value)]) → VDisj x (⟨vsp, (.object ⟨ar.keys.length, ar.keys.length + (kstk.drop ki).length⟩ ⟨ar.values.length, ar.values.length + ((vstk ++ [(⟨vsp, vk⟩ : Value)]).drop vi).length⟩)⟩ : Value) := by
              intro x hx r1 r2 hr1 hr2
              simp only [vrangeOf, Option.some.injEq] at hr2
              subst hr2
              exact Or.inl (hallv x hx r1 hr1).2
            exact pairwise_close_perm VDisj_symm ar.values (vstk ++ [(⟨vsp, vk⟩ : Value)]) vi
              (⟨vsp, (.object ⟨ar.keys.length, ar.keys.length + (kstk.drop ki).length⟩ ⟨ar.values.length, ar.values.length + ((vstk ++ [(⟨vsp, vk⟩ : Value)]).drop vi).length⟩)⟩ : Value) h5 hcx
          · have hcx : ∀ x, x ∈ ar.values ++ (vstk ++ [(⟨vsp, vk⟩ : Value)]) → KDisj x (⟨vsp, (.object ⟨ar.keys.length, ar.keys.length + (kstk.drop ki).length⟩ ⟨ar.values.length, ar.values.length + ((vstk ++ [(⟨vsp, vk⟩ : Value)]).drop vi).length⟩)⟩ : Value) := by
              intro x hx r1 r2 hr1 hr2
              simp only [krangeOf, Option.some.injEq] at hr2
              subst hr2
              exact Or.inl (hallk x hx r1 hr1).2
            exact pairwise_close_perm KDisj_symm ar.values (vstk ++ [(⟨vsp, vk⟩ : Value)]) vi
              (⟨vsp, (.object ⟨ar.keys.length, ar.keys.length + (kstk.drop ki).length⟩ ⟨ar.values.length, ar.values.length + ((vstk ++ [(⟨vsp, vk⟩ : Value)]).drop vi).length⟩)⟩ : Value) h6 hcx
  | closeArray =>
    cases stk with
    | nil =>
      simp only [stepTok] at hstep
      simp at hstep
    | cons item rest =>
      obtain ⟨s0, kind⟩ := item
      cases kind with
      | object vi ki =>
        simp only [stepTok] at hstep
        simp at hstep
      | array vi =>
        cases ctx with
        | waitingKey =>
          simp only [stepTok] at hstep
          simp at hstep
        | key ksp kk0 =>
          simp only [stepTok] at hstep
          simp at hstep
        | waitingValue =>
          simp only [stepTok] at hstep
          by_cases hv : (vstk.length == vi) = true
          · rw [if_pos hv] at hstep
            simp only [Prod.mk.injEq, Except.ok.injEq] at hstep
            obtain ⟨⟨rfl, rfl⟩, rfl⟩ := hstep
            obtain ⟨h1, h2, h3, h4, h5, h6⟩ := hinv
            refine ⟨h1, ?_, h3, ?_, ?_, ?_⟩
            · intro p hp r hr
              replace hp : p ∈ vstk ++ [(⟨⟨s0, sp.stop⟩, .array ⟨0, 0⟩⟩ : Value)] := hp
              rcases List.mem_append.mp hp with hp | hp
              · exact h2 p hp r hr
              · rw [List.mem_singleton] at hp
                subst hp
                replace hr : vrangeOf (.array ⟨0, 0⟩) = some r := hr
                simp only [vrangeOf, Option.some.injEq] at hr
                subst hr
                exact ⟨Nat.le_refl _, Nat.zero_le _⟩
            · intro p hp kr hkr
              replace hp : p ∈ vstk ++ [(⟨⟨s0, sp.stop⟩, .array ⟨0, 0⟩⟩ : Value)] := hp
              rcases List.mem_append.mp hp with hp | hp
              · exact h4 p hp kr hkr
              · rw [List.mem_singleton] at hp
                subst hp
                replace hkr : krangeOf (.array ⟨0, 0⟩) = some kr := hkr
                simp only [krangeOf, Option.some.injEq] at hkr
                exact absurd hkr (by simp)
                
            · show List.Pairwise VDisj (ar.values ++ (vstk ++ [(⟨⟨s0, sp.stop⟩, .array ⟨0, 0⟩⟩ : Value)]))
              rw [← List.append_assoc]
              refine pairwise_append_one _ _ h5 ?_
              intro x hx r1 r2 hr1 hr2
              simp only [vrangeOf, Option.some.injEq] at hr2
              subst hr2
              exact Or.inr (Nat.zero_le _)
            · show List.Pairwise KDisj (ar.values ++ (vstk ++ [(⟨⟨s0, sp.stop⟩, .array ⟨0, 0⟩⟩ : Value)]))
              rw [← List.append_assoc]
              refine pairwise_append_one _ _ h6 ?_
              intro x hx r1 r2 hr1 hr2
              exact absurd hr2 (by simp [krangeOf])
          · rw [if_neg hv] at hstep
            simp at hstep
        | value vsp vk =>
          simp only [stepTok, Prod.mk.injEq, Except.ok.injEq] at hstep
          obtain ⟨⟨rfl, rfl⟩, rfl⟩ := hstep
          obtain ⟨h1, h2, h3, h4, h5, h6⟩ := hinv
          have hallv : ∀ x, x ∈ ar.values ++ (vstk ++ [(⟨vsp, vk⟩ : Value)]) →
              ∀ r, vrangeOf x.kind = some r →
              r.start ≤ r.stop ∧ r.stop ≤ ar.values.length := by
            intro x hx r hr
            rcases List.mem_append.mp hx with hx | hx
            · exact slotsVBound ar.values h1 x hx r hr
            · exact h2 x hx r hr
          have hallk : ∀ x, x ∈ ar.values ++ (vstk ++ [(⟨vsp, vk⟩ : Value)]) →
              ∀ kr, krangeOf x.kind = some kr →
              kr.start ≤ kr.stop ∧ kr.stop ≤ ar.keys.length := by
            intro x hx kr hkr
            rcases List.mem_append.mp hx with hx | hx
            · exact slotsKBound ar.values ar.keys.length h3 x hx kr hkr
            · exact h4 x hx kr hkr
          refine ⟨?_, ?_, ?_, ?_, ?_, ?_⟩
          · intro m r hm hr
            replace hm : m < (ar.values ++ ((vstk ++ [(⟨vsp, vk⟩ : Value)]).drop vi)).length := hm
            replace hr : vrangeOf (((ar.values ++ ((vstk ++ [(⟨vsp, vk⟩ : Value)]).drop vi)).getD m
              ⟨⟨0, 0⟩, .leaf .null⟩).kind) = some r := hr
            rw [List.length_append] at hm
            by_cases hmL : m < ar.values.length
            · rw [List.getD_append _ _ _ _ hmL] at hr
              exact h1 m r hmL hr
            · rw [List.getD_append_right _ _ _ _ (by omega)] at hr
              have hmem := mem_of_getD ((vstk ++ [(⟨vsp, vk⟩ : Value)]).drop vi) (m - ar.values.length)
                ⟨⟨0, 0⟩, .leaf .null⟩ (by omega)
              have hb := h2 _ (List.mem_of_mem_drop hmem) r hr
              exact ⟨hb.1, by omega⟩
          · intro p hp r hr
            replace hp : p ∈ ((vstk ++ [(⟨vsp, vk⟩ : Value)]).take vi) ++ [(⟨vsp, (.array ⟨ar.values.length, ar.values.length + ((vstk ++ [(⟨vsp, vk⟩ : Value)]).drop vi).length⟩)⟩ : Value)] := hp
            rcases List.mem_append.mp hp with hp | hp
            · have hb := h2 p (List.mem_of_mem_take hp) r hr
              refine ⟨hb.1, ?_⟩
              show r.stop ≤ (ar.values ++ ((vstk ++ [(⟨vsp, vk⟩ : Value)]).drop vi)).length
              rw [List.length_append]
              omega
            · rw [List.mem_singleton] at hp
              subst hp
              replace hr : vrangeOf (.array ⟨ar.values.length, ar.values.length + ((vstk ++ [(⟨vsp, vk⟩ : Value)]).drop vi).length⟩) = some r := hr
              simp only [vrangeOf, Option.some.injEq] at hr
              subst hr
              refine ⟨Nat.le_add_right _ _, ?_⟩
              show ar.values.length + ((vstk ++ [(⟨vsp, vk⟩ : Value)]).drop vi).length ≤ (ar.values ++ ((vstk ++ [(⟨vsp, vk⟩ : Value)]).drop vi)).length
              rw [List.length_append]
          · intro m kr hm hkr
            replace hm : m < (ar.values ++ ((vstk ++ [(⟨vsp, vk⟩ : Value)]).drop vi)).length := hm
            replace hkr : krangeOf (((ar.values ++ ((vstk ++ [(⟨vsp, vk⟩ : Value)]).drop vi)).getD m
              ⟨⟨0, 0⟩, .leaf .null⟩).kind) = some kr := hkr
            rw [List.length_append] at hm
            by_cases hmL : m < ar.values.length
            · rw [List.getD_append _ _ _ _ hmL] at hkr
              have hb := h3 m kr hmL hkr
              refine ⟨hb.1, ?_⟩
              show kr.stop ≤ ar.keys.length
              omega
            · rw [List.getD_append_right _ _ _ _ (by omega)] at hkr
              have hmem := mem_of_getD ((vstk ++ [(⟨vsp, vk⟩ : Value)]).drop vi) (m - ar.values.length)
                ⟨⟨0, 0⟩, .leaf .null⟩ (by omega)
              have hb := h4 _ (List.mem_of_mem_drop hmem) kr hkr
              refine ⟨hb.1, ?_⟩
              show kr.stop ≤ ar.keys.length
              omega
          · intro p hp kr hkr
            replace hp : p ∈ ((vstk ++ [(⟨vsp, vk⟩ : Value)]).take vi) ++ [(⟨vsp, (.array ⟨ar.values.length, ar.values.length + ((vstk ++ [(⟨vsp, vk⟩ : Value)]).drop vi).length⟩)⟩ : Value)] := hp
            rcases List.mem_append.mp hp with hp | hp
            · have hb := h4 p (List.mem_of_mem_take hp) kr hkr
              refine ⟨hb.1, ?_⟩
              show kr.stop ≤ ar.keys.length
              omega
            · rw [List.mem_singleton] at hp
              subst hp
              replace hkr : krangeOf (.array ⟨ar.values.length, ar.values.length + ((vstk ++ [(⟨vsp, vk⟩ : Value)]).drop vi).length⟩) = some kr := hkr
              simp only [krangeOf, Option.some.injEq] at hkr
              exact absurd hkr (by simp)
          · have hcx : ∀ x, x ∈ ar.values ++ (vstk ++ [(⟨vsp, vk⟩ : Value)]) → VDisj x (⟨vsp, (.array ⟨ar.values.length, ar.values.length + ((vstk ++ [(⟨vsp, vk⟩ : Value)]).drop vi).length⟩)⟩ : Value) := by
              intro x hx r1 r2 hr1 hr2
              simp only [vrangeOf, Option.some.injEq] at hr2
              subst hr2
              exact Or.inl (hallv x hx r1 hr1).2
            exact pairwise_close_perm VDisj_symm ar.values (vstk ++ [(⟨vsp, vk⟩ : Value)]) vi
              (⟨vsp, (.array ⟨ar.values.length, ar.values.length + ((vstk ++ [(⟨vsp, vk⟩ : Value)]).drop vi).length⟩)⟩ : Value) h5 hcx
          · have hcx : ∀ x, x ∈ ar.values ++ (vstk ++ [(⟨vsp, vk⟩ : Value)]) → KDisj x (⟨vsp, (.array ⟨ar.values.length, ar.values.length + ((vstk ++ [(⟨vsp, vk⟩ : Value)]).drop vi).length⟩)⟩ : Value) := by
              intro x hx r1 r2 hr1 hr2
              exact absurd hr2 (by simp [krangeOf])
            exact pairwise_close_perm KDisj_symm ar.values (vstk ++ [(⟨vsp, vk⟩ : Value)]) vi
              (⟨vsp, (.array ⟨ar.values.length, ar.values.length + ((vstk ++ [(⟨vsp, vk⟩ : Value)]).drop vi).length⟩)⟩ : Value) h6 hcx
  | colon =>
    cases ctx with
    | key ksp kk0 =>
      cases stk with
      | nil =>
        simp only [stepTok] at hstep
        simp at hstep
      | cons item rest =>
        obtain ⟨s0, kind⟩ := item
        cases kind with
        | array vi =>
          simp only [stepTok] at hstep
          simp at hstep
        | object vi ki =>
          simp only [stepTok, Prod.mk.injEq, Except.ok.injEq] at hstep
          obtain ⟨⟨rfl, rfl⟩, rfl⟩ := hstep
          exact hinv
    | waitingKey =>
      simp only [stepTok] at hstep
      simp at hstep
    | waitingValue =>
      simp only [stepTok] at hstep
      simp at hstep
    | value vsp vk =>
      simp only [stepTok] at hstep
      simp at hstep
  | comma =>
    cases ctx with
    | value vsp vk =>
      cases stk with
      | nil =>
        simp only [stepTok] at hstep
        simp at hstep
      | cons item rest =>
        obtain ⟨s0, kind⟩ := item
        cases kind with
        | object vi ki =>
          simp only [stepTok, Prod.mk.injEq, Except.ok.injEq] at hstep
          obtain ⟨⟨rfl, rfl⟩, rfl⟩ := hstep
          exact hinv
        | array vi =>
          simp only [stepTok, Prod.mk.injEq, Except.ok.injEq] at hstep
          obtain ⟨⟨rfl, rfl⟩, rfl⟩ := hstep
          exact hinv
    | waitingKey =>
      simp only [stepTok] at hstep
      simp at hstep
    | waitingValue =>
      simp only [stepTok] at hstep
      simp at hstep
    | key ksp kk0 =>
      simp only [stepTok] at hstep
      simp at hstep

/-- An accepting run from a `PInv` state: the final arena and root value
satisfy the layout bounds and pairwise disjointness. -/
theorem runTokens_pinv (h : List Nat → Nat) :
    ∀ (toks : List TokR) (ar : Arena) (st : PState) (ctx : ContextItem)
      (v : Value) (ar2 : Arena),
      PInv ar st ctx →
      runTokens h ar st ctx toks = (.ok v, ar2) →
      (∀ m r, m < ar2.values.length →
        vrangeOf ((ar2.values.getD m ⟨⟨0, 0⟩, .leaf .null⟩).kind) = some r →
        r.start ≤ r.stop ∧ r.stop ≤ m) ∧
      (∀ r, vrangeOf v.kind = some r → r.start ≤ r.stop ∧ r.stop ≤ ar2.values.length) ∧
      (∀ m kr, m < ar2.values.length →
        krangeOf ((ar2.values.getD m ⟨⟨0, 0⟩, .leaf .null⟩).kind) = some kr →
        kr.start ≤ kr.stop ∧ kr.stop ≤ ar2.keys.length) ∧
      (∀ kr, krangeOf v.kind = some kr → kr.start ≤ kr.stop ∧ kr.stop ≤ ar2.keys.length) ∧
      List.Pairwise VDisj (ar2.values ++ [v]) ∧
      List.Pairwise KDisj (ar2.values ++ [v]) := by
  intro toks
  induction toks with
  | nil =>
    intro ar st ctx v ar2 hinv hrun
    obtain ⟨stk, vstk, kstk⟩ := st
    cases ctx with
    | value sp k =>
      cases stk with
      | nil =>
        simp only [runTokens, Prod.mk.injEq, Except.ok.injEq] at hrun
        obtain ⟨rfl, rfl⟩ := hrun
        obtain ⟨h1, h2, h3, h4, h5, h6⟩ := hinv
        have hsub : (ar.values ++ [(⟨sp, k⟩ : Value)]).Sublist
            (ar.values ++ (vstk ++ [(⟨sp, k⟩ : Value)])) :=
          List.Sublist.append_left (List.sublist_append_right _ _) _
        refine ⟨h1, ?_, h3, ?_, ?_, ?_⟩
        · intro r hr
          exact h2 ⟨sp, k⟩ (List.mem_append_right _ (by simp)) r hr
        · intro kr hkr
          exact h4 ⟨sp, k⟩ (List.mem_append_right _ (by simp)) kr hkr
        · exact List.Pairwise.sublist hsub h5
        · exact List.Pairwise.sublist hsub h6
      | cons a l =>
        simp only [runTokens] at hrun
        simp at hrun
    | waitingValue =>
      cases stk with
      | nil =>
        simp only [runTokens] at hrun
        simp at hrun
      | cons a l =>
        simp only [runTokens] at hrun
        simp at hrun
    | waitingKey =>
      cases stk with
      | nil =>
        simp only [runTokens] at hrun
        simp at hrun
      | cons a l =>
        simp only [runTokens] at hrun
        simp at hrun
    | key ksp kk0 =>
      cases stk with
      | nil =>
        simp only [runTokens] at hrun
        simp at hrun
      | cons a l =>
        simp only [runTokens] at hrun
        simp at hrun
  | cons tok rest ih =>
    intro ar st ctx v ar2 hinv hrun
    cases tok with
    | error esp =>
      simp only [runTokens] at hrun
      simp at hrun
    | ok p =>
      obtain ⟨t, sp⟩ := p
      rcases hstep : stepTok h ar st ctx t sp with ⟨r, ar1⟩
      cases r with
      | error e =>
        simp only [runTokens, hstep] at hrun
        simp at hrun
      | ok p1 =>
        obtain ⟨st1, ctx1⟩ := p1
        simp only [runTokens, hstep] at hrun
        exact ih ar1 st1 ctx1 v ar2 (stepTok_pinv h ar st st1 ctx ctx1 t sp ar1 hinv hstep) hrun

/-- C2: on any accepted input, every container's children/keys ranges lie
within the final vectors, each committed slot's ranges end at or below its
own index (children precede their parent), all containers' ranges are
pairwise disjoint (in particular siblings'), and any container slot lying
inside another container's range has its own range ending at or below that
range's start — the post-order layout. -/
theorem c2_postorder (src : List Nat) (v : Value) (ar2 : Arena)
    (hp : parse src = (.ok v, ar2)) :
    (∀ m r, m < ar2.values.length →
      vrangeOf ((ar2.values.getD m ⟨⟨0, 0⟩, .leaf .null⟩).kind) = some r →
      r.start ≤ r.stop ∧ r.stop ≤ m) ∧
    (∀ r, vrangeOf v.kind = some r → r.start ≤ r.stop ∧ r.stop ≤ ar2.values.length) ∧
    (∀ m kr, m < ar2.values.length →
      krangeOf ((ar2.values.getD m ⟨⟨0, 0⟩, .leaf .null⟩).kind) = some kr →
      kr.start ≤ kr.stop ∧ kr.stop ≤ ar2.keys.length) ∧
    (∀ kr, krangeOf v.kind = some kr → kr.start ≤ kr.stop ∧ kr.stop ≤ ar2.keys.length) ∧
    List.Pairwise VDisj (ar2.values ++ [v]) ∧
    List.Pairwise KDisj (ar2.values ++ [v]) ∧
    (∀ m rm, m < ar2.values.length →
      vrangeOf ((ar2.values.getD m ⟨⟨0, 0⟩, .leaf .null⟩).kind) = some rm →
      ∀ s rs, rm.start ≤ s → s < rm.stop →
        vrangeOf ((ar2.values.getD s ⟨⟨0, 0⟩, .leaf .null⟩).kind) = some rs →
        rs.stop ≤ rm.start) ∧
    (∀ rv, vrangeOf v.kind = some rv →
      ∀ s rs, rv.start ≤ s → s < rv.stop →
        vrangeOf ((ar2.values.getD s ⟨⟨0, 0⟩, .leaf .null⟩).kind) = some rs →
        rs.stop ≤ rv.start) := by
  rw [parse, parseWith] at hp
  obtain ⟨h1, h2, h3, h4, h5, h6⟩ := runTokens_pinv (fun _ => 0) (tokenize src)
    (Arena.new src) ⟨[], [], []⟩ .waitingValue v ar2
    ⟨by intro m r hm hr; simp [Arena.new] at hm, by intro p hp2 r hr; simp [pendOf] at hp2,
     by intro m kr hm hkr; simp [Arena.new] at hm, by intro p hp2 kr hkr; simp [pendOf] at hp2,
     by simp [Arena.new, pendOf], by simp [Arena.new, pendOf]⟩ hp
  have hVpair : ∀ a b, a < b → b < ar2.values.length →
      VDisj (ar2.values.getD a ⟨⟨0, 0⟩, .leaf .null⟩)
        (ar2.values.getD b ⟨⟨0, 0⟩, .leaf .null⟩) := by
    intro a b hab hb
    have hpv : List.Pairwise VDisj ar2.values :=
      List.Pairwise.sublist (List.sublist_append_left _ _) h5
    have := List.pairwise_iff_getElem.mp hpv a b (by omega) hb hab
    rw [List.getD_eq_getElem ar2.values ⟨⟨0, 0⟩, .leaf .null⟩ (by omega),
      List.getD_eq_getElem ar2.values ⟨⟨0, 0⟩, .leaf .null⟩ hb]
    exact this
  refine ⟨h1, h2, h3, h4, h5, h6, ?_, ?_⟩
  · intro m rm hm hrm s rs hs1 hs2 hrs
    have hsltm : s < m := by
      have := h1 m rm hm hrm
      omega
    have hsb := h1 s rs (by omega) hrs
    have hd := hVpair s m hsltm hm rs rm hrs hrm
    rcases hd with hd | hd
    · exact hd
    · omega
  · intro rv hrv s rs hs1 hs2 hrs
    have hsL : s < ar2.values.length := by
      have := h2 rv hrv
      omega
    have hsb := h1 s rs hsL hrs
    have hcross := (List.pairwise_append.mp h5).2.2
    have hd := hcross (ar2.values.getD s ⟨⟨0, 0⟩, .leaf .null⟩)
      (mem_of_getD _ _ _ hsL) v (by simp) rs rv hrs hrv
    rcases hd with hd | hd
    · exact hd
    · omega

theorem c2_postorder_witness :
    (⟨0, 2⟩ : Span).start ≤ (⟨0, 2⟩ : Span).stop ∧
    (⟨0, 2⟩ : Span).stop ≤
      (⟨[123, 34, 97, 34, 58, 49, 44, 34, 97, 34, 58, 50, 125], [], [⟨⟨2, 3⟩⟩],
        [⟨⟨2, 3⟩⟩, ⟨⟨2, 3⟩⟩],
        [⟨⟨5, 6⟩, .leaf .number⟩, ⟨⟨11, 12⟩, .leaf .number⟩]⟩ : Arena).values.length :=
  (c2_postorder [123, 34, 97, 34, 58, 49, 44, 34, 97, 34, 58, 50, 125]
      ⟨⟨11, 12⟩, .object ⟨0, 2⟩ ⟨0, 2⟩⟩
      ⟨[123, 34, 97, 34, 58, 49, 44, 34, 97, 34, 58, 50, 125], [], [⟨⟨2, 3⟩⟩],
        [⟨⟨2, 3⟩⟩, ⟨⟨2, 3⟩⟩],
        [⟨⟨5, 6⟩, .leaf .number⟩, ⟨⟨11, 12⟩, .leaf .number⟩]⟩
      (by simp [parse, parseWith, tokenize, lexFrom, tokenAt, keywordAt, sliceList,
        numStartB, numContB, isDigit, isWs, numExtra, strScanLen, runTokens, stepTok,
        Arena.new, internString, decodeLoop, memchrSlash, resolveIn])).2.1
    ⟨0, 2⟩ rfl

end SonnyJim
